import Mathlib

/-!
Verification of the pseudonymization core (mapping store + redaction engine).

Shallow embedding of `scripts/alias_manager.py` (class `AliasManager`) and
`scripts/text_redactor.py` (class `TextRedactor`).  Python strings are
embedded as `List Char`; `str.lower()` is `List.map Char.toLower` (the
inputs of interest are ASCII, where Python's `lower` agrees with
`Char.toLower`).  Python dicts keyed by strings are embedded as association
lists in insertion order.  Timestamps produced by `datetime.now()` are
passed in as explicit `now` arguments.
-/

/-- Python strings, embedded as lists of characters. -/
abbrev Str := List Char

/-- `s.lower()` (ASCII). -/
def lowerS (s : Str) : Str := s.map Char.toLower

/-- `s.upper()` (ASCII). -/
def upperS (s : Str) : Str := s.map Char.toUpper

/-- First-match lookup in an association list (Python `dict` access in
insertion order, for dicts that are only ever extended). -/
def lookupA {α : Type} (l : List (Str × α)) (k : Str) : Option α :=
  match l with
  | [] => none
  | (k', v) :: rest => if k' = k then some v else lookupA rest k

/-- An entity record of the mapping document
(`alias_manager.py`, `add_entity`, lines 65-72). -/
structure Entity where
  original : Str
  alias' : Str
  type : Str
  variations : List Str
  notes : Str
  added : Str
  deriving DecidableEq

/-- The mapping document (`_empty_mapping`, lines 29-36). -/
structure Mapping where
  version : Str
  created : Str
  updated : Str
  entities : List Entity
  deriving DecidableEq

/-- The literal `"1.0"`. -/
def ver10 : Str := ['1', '.', '0']

/-- `AliasManager._empty_mapping` (lines 29-36): fresh document with no
entities; both timestamps are the current time. -/
def emptyMapping (now : Str) : Mapping :=
  { version := ver10, created := now, updated := now, entities := [] }

/-- The duplicate-checking loop of `add_entity` (lines 58-63): scans the
entity list in order and reports a case-insensitive collision on
`original` or on `alias`. -/
def dupCheck : List Entity → Str → Str → Bool
  | [], _, _ => false
  | e :: rest, o, a =>
    if lowerS e.original = lowerS o then true
    else if lowerS e.alias' = lowerS a then true
    else dupCheck rest o a

/-- `AliasManager.add_entity` (lines 55-75): returns the updated document
and the boolean result.  On a duplicate it returns `false` without
mutation; otherwise it appends the new entity (stamped `now`) and returns
`true`. -/
def add_entity (m : Mapping) (original alias' entity_type : Str)
    (variations : List Str) (notes now : Str) : Mapping × Bool :=
  if dupCheck m.entities original alias' then (m, false)
  else
    ({ m with entities :=
        m.entities ++ [⟨original, alias', entity_type, variations, notes, now⟩] },
     true)

/-- The removal loop of `remove_entity` (lines 79-82): deletes the first
entity whose `original` matches case-insensitively; `none` if no match. -/
def removeFirst : List Entity → Str → Option (List Entity)
  | [], _ => none
  | e :: rest, o =>
    if lowerS e.original = lowerS o then some rest
    else (removeFirst rest o).map (fun l => e :: l)

/-- `AliasManager.remove_entity` (lines 77-83). -/
def remove_entity (m : Mapping) (original : Str) : Mapping × Bool :=
  match removeFirst m.entities original with
  | some es => ({ m with entities := es }, true)
  | none => (m, false)

/-- The per-entity test of `get_entity` (lines 88-93): the query matches an
entity when it equals the `original` or any variation, case-insensitively.
The inner `for var in entity.get('variations', [])` loop is embedded as
`List.any`. -/
def entityMatches (e : Entity) (q : Str) : Bool :=
  lowerS e.original = lowerS q || e.variations.any (fun v => lowerS v = lowerS q)

/-- The scanning loop of `get_entity` (lines 87-94). -/
def get_entity_aux : List Entity → Str → Option Entity
  | [], _ => none
  | e :: rest, q =>
    if lowerS e.original = lowerS q then some e
    else if e.variations.any (fun v => lowerS v = lowerS q) then some e
    else get_entity_aux rest q

/-- `AliasManager.get_entity` (lines 85-94). -/
def get_entity (m : Mapping) (original : Str) : Option Entity :=
  get_entity_aux m.entities original

/-- `AliasManager.get_alias` (lines 96-99). -/
def get_alias (m : Mapping) (original : Str) : Option Str :=
  (get_entity m original).map (fun e => e.alias')

/-- The keyword arguments accepted by `update_entity` (lines 101-112),
made explicit: one optional value per whitelisted field (`allowed_fields =
['alias', 'type', 'variations', 'notes']`), plus the names of any supplied
fields outside the whitelist, which the loop skips without reading their
values. -/
structure Patch where
  alias' : Option Str
  type : Option Str
  variations : Option (List Str)
  notes : Option Str
  extra : List Str
  deriving DecidableEq

/-- The field-application loop of `update_entity` (lines 107-110): only
whitelisted fields are written; everything else on the entity is kept. -/
def applyPatch (e : Entity) (p : Patch) : Entity :=
  { e with
    alias' := p.alias'.getD e.alias'
    type := p.type.getD e.type
    variations := p.variations.getD e.variations
    notes := p.notes.getD e.notes }

/-- In-place mutation of the entity found by `get_entity`: replace the
first entity matched by the `get_entity` criterion with its patched
version. -/
def updateFirst : List Entity → Str → Patch → Option (List Entity)
  | [], _, _ => none
  | e :: rest, q, p =>
    if entityMatches e q then some (applyPatch e p :: rest)
    else (updateFirst rest q p).map (fun l => e :: l)

/-- `AliasManager.update_entity` (lines 101-112). -/
def update_entity (m : Mapping) (original : Str) (p : Patch) : Mapping × Bool :=
  match updateFirst m.entities original p with
  | some es => ({ m with entities := es }, true)
  | none => (m, false)

/-- Validation issues (`validate`, lines 200-226).  The Python code renders
each issue as a message string (`f"Entity {i}: missing original"`, etc.);
the embedding keeps the issue's content rather than its rendering. -/
inductive Issue where
  | dupOriginals (names : List Str)
  | dupAliases (names : List Str)
  | missingOriginal (idx : Nat)
  | missingAlias (idx : Nat)
  deriving DecidableEq

/-- `set(x for x in xs if xs.count(x) > 1)` (lines 206 and 212), embedded
as a duplicate-free list. -/
def dupsOf (xs : List Str) : List Str :=
  (xs.filter (fun x => 1 < xs.count x)).dedup

/-- The per-entity empty-field checks of `validate` (lines 217-221),
with running index `i`. -/
def missingIssues : Nat → List Entity → List Issue
  | _, [] => []
  | i, e :: rest =>
    (if e.original = [] then [Issue.missingOriginal i] else []) ++
    (if e.alias' = [] then [Issue.missingAlias i] else []) ++
    missingIssues (i + 1) rest

/-- `AliasManager.validate` (lines 200-226): `valid` iff the issue list is
empty. -/
def validate (m : Mapping) : Bool × List Issue :=
  let originals := m.entities.map (fun e => lowerS e.original)
  let aliases := m.entities.map (fun e => lowerS e.alias')
  let issues :=
    (if dupsOf originals = [] then [] else [Issue.dupOriginals (dupsOf originals)]) ++
    (if dupsOf aliases = [] then [] else [Issue.dupAliases (dupsOf aliases)]) ++
    missingIssues 0 m.entities
  (issues.isEmpty, issues)

/- ### Helper lemmas on the store -/

theorem dupCheck_iff (es : List Entity) (o a : Str) :
    dupCheck es o a = true ↔
      ∃ e ∈ es, lowerS e.original = lowerS o ∨ lowerS e.alias' = lowerS a := by
  induction es with
  | nil => simp [dupCheck]
  | cons e rest ih =>
    by_cases h1 : lowerS e.original = lowerS o
    · simp [dupCheck, h1]
    · by_cases h2 : lowerS e.alias' = lowerS a
      · simp [dupCheck, h1, h2]
      · simp [dupCheck, h1, h2, ih]

theorem dupCheck_eq_false_iff (es : List Entity) (o a : Str) :
    dupCheck es o a = false ↔
      ∀ e ∈ es, lowerS e.original ≠ lowerS o ∧ lowerS e.alias' ≠ lowerS a := by
  rw [← Bool.not_eq_true, dupCheck_iff]
  push_neg
  simp

theorem removeFirst_sublist (es : List Entity) (o : Str) (es' : List Entity)
    (h : removeFirst es o = some es') : es'.Sublist es := by
  induction es generalizing es' with
  | nil => simp [removeFirst] at h
  | cons e rest ih =>
    by_cases h1 : lowerS e.original = lowerS o
    · simp only [removeFirst, h1, if_pos] at h
      cases h
      exact (List.sublist_cons_self e rest)
    · simp only [removeFirst, h1, if_neg, Option.map_eq_some', not_false_iff] at h
      obtain ⟨l, hl, rfl⟩ := h
      exact (ih l hl).cons₂ e

/- ### C1: add_entity duplicate handling -/

/-- C1.  `add_entity` fails (returning `false`, leaving the document
unchanged) exactly when the given `original` or `alias` collides
case-insensitively with an existing entity; otherwise it appends exactly
one new entity carrying the given fields and returns `true`.  Consequently
a second identical call returns `false` and leaves the cardinality
unchanged. -/
theorem add_entity_spec (m : Mapping) (o a ty : Str) (vs : List Str) (no now : Str) :
    ((∃ e ∈ m.entities, lowerS e.original = lowerS o ∨ lowerS e.alias' = lowerS a) →
      add_entity m o a ty vs no now = (m, false)) ∧
    ((∀ e ∈ m.entities, lowerS e.original ≠ lowerS o ∧ lowerS e.alias' ≠ lowerS a) →
      add_entity m o a ty vs no now =
        ({ m with entities := m.entities ++ [⟨o, a, ty, vs, no, now⟩] }, true)) ∧
    (∀ now2,
      (add_entity (add_entity m o a ty vs no now).1 o a ty vs no now2).2 = false ∧
      (add_entity (add_entity m o a ty vs no now).1 o a ty vs no now2).1.entities.length =
        (add_entity m o a ty vs no now).1.entities.length) := by
  refine ⟨?_, ?_, ?_⟩
  · intro h
    have hd : dupCheck m.entities o a = true := (dupCheck_iff m.entities o a).mpr h
    simp [add_entity, hd]
  · intro h
    have hd : dupCheck m.entities o a = false := (dupCheck_eq_false_iff m.entities o a).mpr h
    simp [add_entity, hd]
  · intro now2
    by_cases hd : dupCheck m.entities o a = true
    · simp [add_entity, hd]
    · have hd' : dupCheck m.entities o a = false := by
        simpa using hd
      have hnew : dupCheck (m.entities ++ [⟨o, a, ty, vs, no, now⟩]) o a = true := by
        rw [dupCheck_iff]
        exact ⟨⟨o, a, ty, vs, no, now⟩, by simp, Or.inl rfl⟩
      simp [add_entity, hd', hnew]

/-- Concrete instance for `add_entity_spec`: adding `"John" → "PA"` to the
empty store succeeds and appends the entity. -/
theorem add_entity_spec_witness :
    add_entity (emptyMapping ['t']) ['J', 'o', 'h', 'n'] ['P', 'A'] ['p'] [] [] ['t'] =
      ({ emptyMapping ['t'] with
          entities := [⟨['J', 'o', 'h', 'n'], ['P', 'A'], ['p'], [], [], ['t']⟩] },
       true) :=
  (add_entity_spec (emptyMapping ['t']) ['J', 'o', 'h', 'n'] ['P', 'A'] ['p'] [] [] ['t']).2.1
    (by decide)

/- ### C2: the uniqueness invariant is preserved -/

/-- A store operation: one `add_entity` or `remove_entity` call, with the
timestamp of the add made explicit. -/
inductive StoreOp where
  | add (original alias' entity_type : Str) (variations : List Str) (notes now : Str)
  | remove (original : Str)

/-- Apply one store operation, discarding the boolean result. -/
def applyOp (m : Mapping) : StoreOp → Mapping
  | .add o a t v n ts => (add_entity m o a t v n ts).1
  | .remove o => (remove_entity m o).1

/-- Run a sequence of store operations. -/
def runOps (init : Mapping) (ops : List StoreOp) : Mapping :=
  ops.foldl applyOp init

/-- The uniqueness invariant: any two distinct entities in the store have
case-insensitively distinct originals and case-insensitively distinct
aliases. -/
def UniqStore (m : Mapping) : Prop :=
  m.entities.Pairwise
    (fun e1 e2 => lowerS e1.original ≠ lowerS e2.original ∧ lowerS e1.alias' ≠ lowerS e2.alias')

theorem uniq_applyOp (m : Mapping) (op : StoreOp) (h : UniqStore m) :
    UniqStore (applyOp m op) := by
  cases op with
  | add o a t v n ts =>
    by_cases hd : dupCheck m.entities o a = true
    · simpa [applyOp, add_entity, hd] using h
    · have hd' : dupCheck m.entities o a = false := by simpa using hd
      have hall := (dupCheck_eq_false_iff m.entities o a).mp hd'
      simp only [applyOp, add_entity, hd', Bool.false_eq_true, if_false]
      unfold UniqStore at h ⊢
      simp only [List.pairwise_append]
      refine ⟨h, by simp, ?_⟩
      intro x hx y hy
      simp only [List.mem_singleton] at hy
      subst hy
      exact ⟨(hall x hx).1, (hall x hx).2⟩
  | remove o =>
    cases hrf : removeFirst m.entities o with
    | none => simpa [applyOp, remove_entity, hrf] using h
    | some es =>
      simp only [applyOp, remove_entity, hrf]
      unfold UniqStore at h ⊢
      exact List.Pairwise.sublist (removeFirst_sublist m.entities o es hrf) h

theorem uniq_runOps (ops : List StoreOp) (m : Mapping) (h : UniqStore m) :
    UniqStore (runOps m ops) := by
  induction ops generalizing m with
  | nil => simpa [runOps] using h
  | cons op rest ih =>
    rw [runOps, List.foldl_cons]
    exact ih _ (uniq_applyOp _ _ h)

/-- C2.  Starting from the empty store, any sequence of `add_entity` and
`remove_entity` calls preserves the uniqueness invariant: all pairs of
distinct entities differ case-insensitively on `original` and on
`alias`. -/
theorem store_uniqueness_invariant (ops : List StoreOp) (now : Str) :
    UniqStore (runOps (emptyMapping now) ops) := by
  refine uniq_runOps ops _ ?_
  unfold UniqStore emptyMapping
  simp

/- ### C5: lookup resolution order -/

theorem get_entity_aux_eq_find (es : List Entity) (q : Str) :
    get_entity_aux es q = es.find? (fun e => entityMatches e q) := by
  induction es with
  | nil => simp [get_entity_aux]
  | cons e rest ih =>
    by_cases h1 : lowerS e.original = lowerS q
    · simp [get_entity_aux, h1, List.find?_cons, entityMatches]
    · by_cases h2 : e.variations.any (fun v => lowerS v = lowerS q)
      · simp [get_entity_aux, h1, h2, List.find?_cons, entityMatches]
      · simp [get_entity_aux, h1, h2, List.find?_cons, entityMatches, ih]

/-- C5.  `get_entity` returns the first entity in mapping order whose
`original` or any variation equals the query case-insensitively; it
returns `none` exactly when no entity matches; a query equal to a
registered variation resolves to an entity (never a miss); and
`get_alias` projects the alias of that same entity. -/
theorem get_entity_first_match (m : Mapping) (q : Str) :
    get_entity m q = m.entities.find? (fun e => entityMatches e q) ∧
    (get_entity m q = none ↔ ∀ e ∈ m.entities, entityMatches e q = false) ∧
    (∀ e ∈ m.entities, (∃ v ∈ e.variations, lowerS v = lowerS q) →
      (get_entity m q).isSome = true) ∧
    (∀ e, get_entity m q = some e → get_alias m q = some e.alias') := by
  have hfind : get_entity m q = m.entities.find? (fun e => entityMatches e q) :=
    get_entity_aux_eq_find m.entities q
  refine ⟨hfind, ?_, ?_, ?_⟩
  · rw [hfind, List.find?_eq_none]
    constructor
    · intro h e he
      simpa using h e he
    · intro h e he
      simp [h e he]
  · intro e he hv
    rw [hfind, List.find?_isSome]
    refine ⟨e, he, ?_⟩
    obtain ⟨v, hvmem, hveq⟩ := hv
    simp only [entityMatches, Bool.or_eq_true, List.any_eq_true, decide_eq_true_eq]
    exact Or.inr ⟨v, hvmem, hveq⟩
  · intro e he
    simp [get_alias, he]

/-- Concrete instance for `get_entity_first_match`: a query equal to a
variation of the sole entity resolves to that entity's alias. -/
theorem get_entity_first_match_witness :
    get_alias
      { version := ver10, created := ['t'], updated := ['t'],
        entities := [⟨['J', 'S'], ['P', 'A'], ['p'], [['J']], [], ['t']⟩] }
      ['j'] = some ['P', 'A'] := by
  refine (get_entity_first_match
      { version := ver10, created := ['t'], updated := ['t'],
        entities := [⟨['J', 'S'], ['P', 'A'], ['p'], [['J']], [], ['t']⟩] }
      ['j']).2.2.2 ⟨['J', 'S'], ['P', 'A'], ['p'], [['J']], [], ['t']⟩ (by decide)

/- ### C8: update_entity frame conditions -/

theorem updateFirst_spec (es : List Entity) (q : Str) (p : Patch) :
    (get_entity_aux es q = none → updateFirst es q p = none) ∧
    (∀ e0, get_entity_aux es q = some e0 →
      ∃ pre post, es = pre ++ e0 :: post ∧
        updateFirst es q p = some (pre ++ applyPatch e0 p :: post) ∧
        ∀ x ∈ pre, entityMatches x q = false) := by
  induction es with
  | nil => simp [get_entity_aux, updateFirst]
  | cons e rest ih =>
    by_cases hm : entityMatches e q = true
    · have hsome : get_entity_aux (e :: rest) q = some e := by
        simp only [entityMatches, Bool.or_eq_true] at hm
        rcases hm with h1 | h2
        · simp [get_entity_aux, of_decide_eq_true h1]
        · by_cases h1 : lowerS e.original = lowerS q
          · simp [get_entity_aux, h1]
          · simp [get_entity_aux, h1, h2]
      constructor
      · intro h
        rw [hsome] at h
        cases h
      · intro e0 h
        rw [hsome] at h
        cases h
        exact ⟨[], rest, rfl, by simp [updateFirst, hm], by simp⟩
    · have hb : entityMatches e q = false := by simpa using hm
      have h1 : ¬ lowerS e.original = lowerS q := by
        intro hc
        simp [entityMatches, hc] at hb
      have h2 : ¬ e.variations.any (fun v => lowerS v = lowerS q) = true := by
        intro hc
        simp [entityMatches, hc] at hb
      constructor
      · intro h
        simp only [get_entity_aux, h1, if_false, if_neg h2] at h
        simp [updateFirst, hb, (ih.1 h)]
      · intro e0 h
        simp only [get_entity_aux, h1, if_false, if_neg h2] at h
        obtain ⟨pre, post, hsplit, hupd, hpre⟩ := ih.2 e0 h
        refine ⟨e :: pre, post, by simp [hsplit], ?_, ?_⟩
        · simp [updateFirst, hb, hupd]
        · intro x hx
          rcases List.mem_cons.mp hx with rfl | hx'
          · exact hb
          · exact hpre x hx'

/-- C8.  `update_entity` changes only the whitelisted fields of the
resolved entity (`alias`, `type`, `variations`, `notes`); supplied fields
outside the whitelist are ignored, every other entity is untouched, a
lookup miss returns `false` with the store unchanged, and success does not
depend on any alias-uniqueness revalidation. -/
theorem update_entity_frame (m : Mapping) (q : Str) (p : Patch) :
    (get_entity m q = none → update_entity m q p = (m, false)) ∧
    (∀ e0, get_entity m q = some e0 →
      ∃ pre post, m.entities = pre ++ e0 :: post ∧
        (update_entity m q p).2 = true ∧
        (update_entity m q p).1.entities = pre ++ applyPatch e0 p :: post ∧
        (update_entity m q p).1.version = m.version ∧
        (applyPatch e0 p).original = e0.original ∧
        (applyPatch e0 p).added = e0.added) ∧
    (∀ e xs, applyPatch e { p with extra := xs } = applyPatch e p) := by
  refine ⟨?_, ?_, ?_⟩
  · intro h
    have := (updateFirst_spec m.entities q p).1 h
    simp [update_entity, this]
  · intro e0 h
    obtain ⟨pre, post, hsplit, hupd, _⟩ := (updateFirst_spec m.entities q p).2 e0 h
    exact ⟨pre, post, hsplit, by simp [update_entity, hupd], by simp [update_entity, hupd],
      by simp [update_entity, hupd], rfl, rfl⟩
  · intro e xs
    simp [applyPatch]

/-- Concrete instance for `update_entity_frame`: updating the first
entity's alias to collide case-insensitively with the second entity's
alias still succeeds (no revalidation), and only the alias field of the
first entity changes. -/
theorem update_entity_frame_witness :
    (update_entity
        { version := ver10, created := ['t'], updated := ['t'],
          entities := [⟨['A'], ['X'], ['p'], [], [], ['t']⟩,
                       ⟨['B'], ['Y'], ['p'], [], [], ['t']⟩] }
        ['A'] ⟨some ['y'], none, none, none, []⟩).2 = true ∧
    (update_entity
        { version := ver10, created := ['t'], updated := ['t'],
          entities := [⟨['A'], ['X'], ['p'], [], [], ['t']⟩,
                       ⟨['B'], ['Y'], ['p'], [], [], ['t']⟩] }
        ['A'] ⟨some ['y'], none, none, none, []⟩).1.entities =
      [⟨['A'], ['y'], ['p'], [], [], ['t']⟩, ⟨['B'], ['Y'], ['p'], [], [], ['t']⟩] := by
  obtain ⟨pre, post, hsplit, hb, hents, -, -, -⟩ :=
    (update_entity_frame
      { version := ver10, created := ['t'], updated := ['t'],
        entities := [⟨['A'], ['X'], ['p'], [], [], ['t']⟩,
                     ⟨['B'], ['Y'], ['p'], [], [], ['t']⟩] }
      ['A'] ⟨some ['y'], none, none, none, []⟩).2.1
      ⟨['A'], ['X'], ['p'], [], [], ['t']⟩ (by decide)
  exact ⟨hb, by decide⟩

/- ### C10: add_entity does not enforce non-emptiness -/

theorem missingIssues_append_original (es : List Entity) (i : Nat) (e : Entity)
    (h : e.original = []) :
    Issue.missingOriginal (i + es.length) ∈ missingIssues i (es ++ [e]) := by
  induction es generalizing i with
  | nil =>
    simp [missingIssues, h]
  | cons x xs ih =>
    simp only [List.cons_append, missingIssues, List.mem_append]
    right
    have := ih (i + 1)
    simpa [Nat.add_comm, Nat.add_assoc, Nat.add_left_comm] using this

theorem missingIssues_append_alias (es : List Entity) (i : Nat) (e : Entity)
    (h : e.alias' = []) :
    Issue.missingAlias (i + es.length) ∈ missingIssues i (es ++ [e]) := by
  induction es generalizing i with
  | nil =>
    simp [missingIssues, h]
  | cons x xs ih =>
    simp only [List.cons_append, missingIssues, List.mem_append]
    right
    have := ih (i + 1)
    simpa [Nat.add_comm, Nat.add_assoc, Nat.add_left_comm] using this

/-- C10.  `add_entity` performs no non-emptiness check: with no
case-insensitive collision present, adding an entity with an empty
`original` (or an empty `alias`) returns `true` and appends it, and
`validate` on the resulting store then reports `valid = false` with an
issue naming the missing field at the new entity's index. -/
theorem add_entity_empty_fields (m : Mapping) (o a ty : Str) (vs : List Str) (no now : Str) :
    ((∀ e ∈ m.entities, lowerS e.original ≠ [] ∧ lowerS e.alias' ≠ lowerS a) →
      add_entity m [] a ty vs no now =
        ({ m with entities := m.entities ++ [⟨[], a, ty, vs, no, now⟩] }, true) ∧
      (validate (add_entity m [] a ty vs no now).1).1 = false ∧
      Issue.missingOriginal m.entities.length ∈ (validate (add_entity m [] a ty vs no now).1).2) ∧
    ((∀ e ∈ m.entities, lowerS e.original ≠ lowerS o ∧ lowerS e.alias' ≠ []) →
      add_entity m o [] ty vs no now =
        ({ m with entities := m.entities ++ [⟨o, [], ty, vs, no, now⟩] }, true) ∧
      (validate (add_entity m o [] ty vs no now).1).1 = false ∧
      Issue.missingAlias m.entities.length ∈ (validate (add_entity m o [] ty vs no now).1).2) := by
  constructor
  · intro h
    have hd : dupCheck m.entities [] a = false := by
      rw [dupCheck_eq_false_iff]
      intro e he
      simpa using h e he
    have hadd : add_entity m [] a ty vs no now =
        ({ m with entities := m.entities ++ [⟨[], a, ty, vs, no, now⟩] }, true) := by
      simp [add_entity, hd]
    refine ⟨hadd, ?_, ?_⟩
    · rw [hadd]
      have hmem : Issue.missingOriginal m.entities.length ∈
          (validate { m with entities := m.entities ++ [⟨[], a, ty, vs, no, now⟩] }).2 := by
        simp only [validate, List.mem_append]
        right
        simpa using missingIssues_append_original m.entities 0 ⟨[], a, ty, vs, no, now⟩ rfl
      have hne : (validate { m with entities := m.entities ++ [⟨[], a, ty, vs, no, now⟩] }).2 ≠ [] :=
        List.ne_nil_of_mem hmem
      simp only [validate] at hne ⊢
      simpa [List.isEmpty_iff] using hne
    · rw [hadd]
      simp only [validate, List.mem_append]
      right
      simpa using missingIssues_append_original m.entities 0 ⟨[], a, ty, vs, no, now⟩ rfl
  · intro h
    have hd : dupCheck m.entities o [] = false := by
      rw [dupCheck_eq_false_iff]
      intro e he
      simpa using h e he
    have hadd : add_entity m o [] ty vs no now =
        ({ m with entities := m.entities ++ [⟨o, [], ty, vs, no, now⟩] }, true) := by
      simp [add_entity, hd]
    refine ⟨hadd, ?_, ?_⟩
    · rw [hadd]
      have hmem : Issue.missingAlias m.entities.length ∈
          (validate { m with entities := m.entities ++ [⟨o, [], ty, vs, no, now⟩] }).2 := by
        simp only [validate, List.mem_append]
        right
        simpa using missingIssues_append_alias m.entities 0 ⟨o, [], ty, vs, no, now⟩ rfl
      have hne : (validate { m with entities := m.entities ++ [⟨o, [], ty, vs, no, now⟩] }).2 ≠ [] :=
        List.ne_nil_of_mem hmem
      simp only [validate] at hne ⊢
      simpa [List.isEmpty_iff] using hne
    · rw [hadd]
      simp only [validate, List.mem_append]
      right
      simpa using missingIssues_append_alias m.entities 0 ⟨o, [], ty, vs, no, now⟩ rfl

/-- Concrete instance for `add_entity_empty_fields`: adding an entity with
empty original to the empty store succeeds, and validation then fails. -/
theorem add_entity_empty_fields_witness :
    add_entity (emptyMapping ['t']) [] ['A'] ['p'] [] [] ['t'] =
      ({ emptyMapping ['t'] with entities := [⟨[], ['A'], ['p'], [], [], ['t']⟩] }, true) ∧
    (validate (add_entity (emptyMapping ['t']) [] ['A'] ['p'] [] [] ['t']).1).1 = false :=
  have h := (add_entity_empty_fields (emptyMapping ['t']) [] ['A'] ['p'] [] [] ['t']).1
    (by decide)
  ⟨h.1, h.2.1⟩

/- ### Redaction engine (`text_redactor.py`) -/

/-- A redaction log entry (the dicts appended to `self.redaction_log`),
distinguished by their `"type"` field (`entity` with a `mapped_from`
field, `pattern` with a `pattern` field, or `random`). -/
inductive LogEntry where
  | entity (original replacement mapped_from : Str)
  | pattern (patternName original replacement : Str)
  | random (original replacement : Str)
  deriving DecidableEq

/-- The `"type"` string of a log entry. -/
def kindStr : LogEntry → Str
  | .entity _ _ _ => ['e', 'n', 't', 'i', 't', 'y']
  | .pattern _ _ _ => ['p', 'a', 't', 't', 'e', 'r', 'n']
  | .random _ _ => ['r', 'a', 'n', 'd', 'o', 'm']

/-- `TextRedactor` instance state (lines 37-41): the mapping document, the
redaction log, and the random-mode per-pattern counters. -/
structure Redactor where
  mapping : Mapping
  redaction_log : List LogEntry
  random_counter : List (Str × Nat)
  deriving DecidableEq

/-- Regex `\w` over the ASCII range: letters, digits, underscore. -/
def isWordChar (c : Char) : Bool := c.isAlphanum || c = '_'

def optWord : Option Char → Bool
  | none => false
  | some c => isWordChar c

/-- The regex `\b` word-boundary test between two adjacent positions
(`none` meaning outside the string). -/
def boundaryB (l r : Option Char) : Bool := optWord l != optWord r

/-- One character of a literal pattern against one character of text,
under optional `re.IGNORECASE`. -/
def charMatch (case_sensitive : Bool) (a b : Char) : Bool :=
  if case_sensitive then a = b else a.toLower = b.toLower

/-- Does `text` start with the literal `term` (i.e. `re.escape(term)`
under optional `re.IGNORECASE`)? -/
def litPrefix (case_sensitive : Bool) : Str → Str → Bool
  | [], _ => true
  | _ :: _, [] => false
  | t :: ts, c :: cs => charMatch case_sensitive t c && litPrefix case_sensitive ts cs

/-- A compiled regex as consumed by `re.sub`: given the character before
the current position (for `\b`) and the remaining text, return the length
of the match starting exactly here, if any. -/
def Matcher := Option Char → Str → Option Nat

/-- The pattern `r'\b' + re.escape(term) + r'\b'` built by
`redact_entities` (line 134): a literal whole-word match. -/
def termMatcher (case_sensitive : Bool) (term : Str) : Matcher := fun prev s =>
  if litPrefix case_sensitive term s
      && boundaryB prev s.head?
      && boundaryB (s.take term.length).getLast? (s.drop term.length).head?
  then some term.length
  else none

/-- One `re.sub(pattern, replace_func, text)` call, embedded as a
left-to-right scan over the input: at each position try the matcher; on a
match, emit `repl` applied to the matched text (threading the replacement
function's state — the engine's mutable log and counters) and continue
after the match; otherwise emit the character and advance one position.
`fuel ≥ text.length` makes the recursion structural; a match of length
zero cannot arise from the matchers used here and is treated as a
non-match. -/
def reSubAux {σ : Type} (M : Matcher) (repl : σ → Str → Str × σ) :
    Nat → σ → Option Char → Str → Str × σ
  | 0, st, _, text => (text, st)
  | _ + 1, st, _, [] => ([], st)
  | fuel + 1, st, prev, c :: cs =>
    match M prev (c :: cs) with
    | some (n + 1) =>
      let step := repl st ((c :: cs).take (n + 1))
      let rec2 := reSubAux M repl fuel step.2 ((c :: cs).take (n + 1)).getLast?
        ((c :: cs).drop (n + 1))
      (step.1 ++ rec2.1, rec2.2)
    | some 0 =>
      let rec2 := reSubAux M repl fuel st (some c) cs
      (c :: rec2.1, rec2.2)
    | none =>
      let rec2 := reSubAux M repl fuel st (some c) cs
      (c :: rec2.1, rec2.2)

def reSub {σ : Type} (M : Matcher) (repl : σ → Str → Str × σ) (st : σ) (text : Str) :
    Str × σ :=
  reSubAux M repl text.length st none text

/-- The number of matches such a scan performs. -/
def reCountAux (M : Matcher) : Nat → Option Char → Str → Nat
  | 0, _, _ => 0
  | _ + 1, _, [] => 0
  | fuel + 1, prev, c :: cs =>
    match M prev (c :: cs) with
    | some (n + 1) =>
      reCountAux M fuel ((c :: cs).take (n + 1)).getLast? ((c :: cs).drop (n + 1)) + 1
    | some 0 => reCountAux M fuel (some c) cs
    | none => reCountAux M fuel (some c) cs

def reCount (M : Matcher) (text : Str) : Nat := reCountAux M text.length none text

/-- Interleave separators and matches:
`glue [p0, ..., pn] [m1, ..., mn] = p0 ++ m1 ++ p1 ++ ... ++ mn ++ pn`. -/
def glue : List Str → List Str → Str
  | [], _ => []
  | p :: _, [] => p
  | p :: ps, mt :: ms => p ++ mt ++ glue ps ms

/-- Run the replacement function over the successive matched substrings,
threading its state. -/
def replFold {σ : Type} (repl : σ → Str → Str × σ) : σ → List Str → List Str × σ
  | st, [] => ([], st)
  | st, mt :: ms =>
    let step := repl st mt
    let rec2 := replFold repl step.2 ms
    (step.1 :: rec2.1, rec2.2)

theorem glue_cons (c : Char) (p : Str) (ps : List Str) (ms : List Str) :
    glue ((c :: p) :: ps) ms = c :: glue (p :: ps) ms := by
  cases ms <;> simp [glue]

/-- The central decomposition: a `re.sub` scan splits the input into
non-match separators and matched substrings, emits the separators
unchanged with the replacements interleaved, threads the replacement
state over the matches in order, and performs `reCount` matches. -/
theorem reSubAux_decomp {σ : Type} (M : Matcher) (repl : σ → Str → Str × σ)
    (HM : ∀ pv s n, M pv s = some n → n ≤ s.length) :
    ∀ fuel (text : Str) (st : σ) prev, text.length ≤ fuel →
      ∃ parts ms, parts.length = ms.length + 1 ∧
        text = glue parts ms ∧
        reSubAux M repl fuel st prev text =
          (glue parts (replFold repl st ms).1, (replFold repl st ms).2) ∧
        reCountAux M fuel prev text = ms.length ∧
        ∀ mt ∈ ms, ∃ pv tail, M pv (mt ++ tail) = some mt.length := by
  intro fuel
  induction fuel with
  | zero =>
    intro text st prev h
    have : text = [] := List.length_eq_zero.mp (Nat.le_zero.mp h)
    subst this
    exact ⟨[[]], [], by simp, by simp [glue], by simp [reSubAux, replFold, glue],
      by simp [reCountAux], by simp⟩
  | succ fuel ih =>
    intro text st prev h
    cases text with
    | nil =>
      exact ⟨[[]], [], by simp, by simp [glue], by simp [reSubAux, replFold, glue],
        by simp [reCountAux], by simp⟩
    | cons c cs =>
      have hcs : cs.length ≤ fuel := by
        simp only [List.length_cons] at h
        omega
      cases hM : M prev (c :: cs) with
      | none =>
        obtain ⟨parts, ms, hlen, htext, hsub, hcount, hmats⟩ := ih cs st (some c) hcs
        obtain ⟨p, ps, rfl⟩ : ∃ p ps, parts = p :: ps := by
          cases parts with
          | nil => simp at hlen
          | cons p ps => exact ⟨p, ps, rfl⟩
        refine ⟨(c :: p) :: ps, ms, by simpa using hlen, ?_, ?_, ?_, hmats⟩
        · rw [glue_cons, ← htext]
        · simp only [reSubAux, hM]
          rw [glue_cons, hsub]
        · simp only [reCountAux, hM]
          exact hcount
      | some n =>
        cases n with
        | zero =>
          obtain ⟨parts, ms, hlen, htext, hsub, hcount, hmats⟩ := ih cs st (some c) hcs
          obtain ⟨p, ps, rfl⟩ : ∃ p ps, parts = p :: ps := by
            cases parts with
            | nil => simp at hlen
            | cons p ps => exact ⟨p, ps, rfl⟩
          refine ⟨(c :: p) :: ps, ms, by simpa using hlen, ?_, ?_, ?_, hmats⟩
          · rw [glue_cons, ← htext]
          · simp only [reSubAux, hM]
            rw [glue_cons, hsub]
          · simp only [reCountAux, hM]
            exact hcount
        | succ n =>
          have hn : n + 1 ≤ cs.length + 1 := by
            simpa using HM prev (c :: cs) (n + 1) hM
          have hdrop : ((c :: cs).drop (n + 1)).length ≤ fuel := by
            simp only [List.length_drop, List.length_cons]
            omega
          obtain ⟨parts, ms, hlen, htext, hsub, hcount, hmats⟩ :=
            ih ((c :: cs).drop (n + 1)) (repl st ((c :: cs).take (n + 1))).2
              ((c :: cs).take (n + 1)).getLast? hdrop
          obtain ⟨p, ps, rfl⟩ : ∃ p ps, parts = p :: ps := by
            cases parts with
            | nil => simp at hlen
            | cons p ps => exact ⟨p, ps, rfl⟩
          have htake_len : ((c :: cs).take (n + 1)).length = n + 1 := by
            simp only [List.length_take, List.length_cons]
            omega
          refine ⟨[] :: p :: ps, (c :: cs).take (n + 1) :: ms, by simpa using hlen,
            ?_, ?_, ?_, ?_⟩
          · simp only [glue]
            rw [← htext]
            simp [List.take_append_drop]
          · simp only [reSubAux, hM, replFold, glue]
            rw [hsub]
            simp
          · simp only [reCountAux, hM]
            rw [hcount]
            simp
          · intro mt hmt
            rcases List.mem_cons.mp hmt with rfl | hmt'
            · refine ⟨prev, (c :: cs).drop (n + 1), ?_⟩
              rw [List.take_append_drop, hM, htake_len]
            · exact hmats mt hmt'

theorem litPrefix_le (case_sensitive : Bool) (t s : Str)
    (h : litPrefix case_sensitive t s = true) : t.length ≤ s.length := by
  induction t generalizing s with
  | nil => simp
  | cons a ts ih =>
    cases s with
    | nil => simp [litPrefix] at h
    | cons c cs =>
      simp only [litPrefix, Bool.and_eq_true] at h
      simpa using ih cs h.2

theorem litPrefix_lower (t s : Str) (h : litPrefix false t s = true) :
    lowerS (s.take t.length) = lowerS t := by
  induction t generalizing s with
  | nil => simp [lowerS]
  | cons a ts ih =>
    cases s with
    | nil => simp [litPrefix] at h
    | cons c cs =>
      simp only [litPrefix, charMatch, Bool.and_eq_true, if_false,
        Bool.false_eq_true, decide_eq_true_eq] at h
      simp only [List.length_cons, List.take_succ_cons, lowerS, List.map_cons,
        List.cons.injEq]
      refine ⟨h.1.symm, ?_⟩
      simpa [lowerS] using ih cs h.2

theorem termMatcher_le (case_sensitive : Bool) (term : Str) :
    ∀ pv s n, termMatcher case_sensitive term pv s = some n → n ≤ s.length := by
  intro pv s n h
  simp only [termMatcher] at h
  by_cases hc : (litPrefix case_sensitive term s && boundaryB pv s.head?
      && boundaryB (s.take term.length).getLast? (s.drop term.length).head?) = true
  · rw [if_pos hc] at h
    have hn := Option.some.inj h
    subst hn
    simp only [Bool.and_eq_true] at hc
    exact litPrefix_le case_sensitive term s hc.1.1
  · rw [if_neg hc] at h
    simp at h

theorem termMatcher_matched_lower (term : Str) (pv : Option Char) (mt tail : Str)
    (h : termMatcher false term pv (mt ++ tail) = some mt.length) :
    lowerS mt = lowerS term := by
  simp only [termMatcher] at h
  by_cases hc : (litPrefix false term (mt ++ tail) && boundaryB pv (mt ++ tail).head?
      && boundaryB ((mt ++ tail).take term.length).getLast?
        ((mt ++ tail).drop term.length).head?) = true
  · rw [if_pos hc] at h
    have hlen : term.length = mt.length := Option.some.inj h
    simp only [Bool.and_eq_true] at hc
    have := litPrefix_lower term (mt ++ tail) hc.1.1
    rw [hlen] at this
    rwa [List.take_left] at this
  · rw [if_neg hc] at h
    simp at h

/-- The replacement closure `make_replacer(alias, term)` of
`redact_entities` (lines 136-145): returns the alias and appends an
`entity` log record with the matched text and the term it mapped from. -/
def entityRepl (al term : Str) : Redactor → Str → Str × Redactor := fun r mt =>
  (al, { r with redaction_log := r.redaction_log ++ [LogEntry.entity mt al term] })

/-- One term pass of `redact_entities` (lines 130-148): empty terms are
skipped; otherwise one `re.sub` with the whole-word literal pattern. -/
def redactTerm (case_sensitive : Bool) (al term : Str) (acc : Str × Redactor) :
    Str × Redactor :=
  if term = [] then acc
  else reSub (termMatcher case_sensitive term) (entityRepl al term) acc.2 acc.1

/-- `TextRedactor.redact_entities` (lines 121-150): for every entity in
mapping order, for every term in `[original] + variations`, substitute
whole-word occurrences (case-insensitively unless `case_sensitive`) by the
entity's alias, logging each replacement. -/
def redact_entities (r : Redactor) (text : Str) (case_sensitive : Bool) :
    Str × Redactor :=
  r.mapping.entities.foldl
    (fun acc e =>
      (e.original :: e.variations).foldl
        (fun a t => redactTerm case_sensitive e.alias' t a) acc)
    (text, r)

/-- The number of whole-word, case-insensitive occurrences of `term` in
`text`: non-overlapping, counted leftmost-first the way `re.sub` scans. -/
def occCount (term text : Str) : Nat := reCount (termMatcher false term) text

theorem replFold_entityRepl (al term : Str) :
    ∀ (ms : List Str) (r : Redactor),
      replFold (entityRepl al term) r ms =
        (ms.map (fun _ => al),
         { r with redaction_log :=
             r.redaction_log ++ ms.map (fun mt => LogEntry.entity mt al term) }) := by
  intro ms
  induction ms with
  | nil => intro r; simp [replFold]
  | cons mt ms ih =>
    intro r
    simp [replFold, entityRepl, ih]

/-- C3.  On a mapping holding a single entity with non-empty original `T`
(no variations) and alias `A`, `redact_entities` (default
case-insensitive mode) replaces the `N = occCount T text` whole-word
occurrences of `T` by `A` — the text decomposes into separators and
matches, and every match is rewritten to `A` — and appends exactly `N`
log entries of kind `entity`, each recording the matched text, replacement
`A`, and `mapped_from = T`; the mapping document itself is unchanged. -/
theorem redact_entities_single_term (r0 : Redactor) (T A ty no ad : Str) (text : Str)
    (hT : T ≠ []) (hr : r0.mapping.entities = [⟨T, A, ty, [], no, ad⟩]) :
    ∃ parts ms,
      parts.length = ms.length + 1 ∧
      ms.length = occCount T text ∧
      text = glue parts ms ∧
      (redact_entities r0 text false).1 = glue parts (ms.map (fun _ => A)) ∧
      (∀ mt ∈ ms, lowerS mt = lowerS T) ∧
      (redact_entities r0 text false).2.redaction_log =
        r0.redaction_log ++ ms.map (fun mt => LogEntry.entity mt A T) ∧
      (redact_entities r0 text false).2.mapping = r0.mapping ∧
      (∀ entry ∈ ms.map (fun mt => LogEntry.entity mt A T),
        kindStr entry = ['e', 'n', 't', 'i', 't', 'y']) := by
  have hred : redact_entities r0 text false =
      reSub (termMatcher false T) (entityRepl A T) r0 text := by
    simp [redact_entities, hr, redactTerm, hT]
  obtain ⟨parts, ms, hlen, htext, hsub, hcount, hmats⟩ :=
    reSubAux_decomp (termMatcher false T) (entityRepl A T)
      (termMatcher_le false T) text.length text r0 none (Nat.le_refl _)
  have hfold := replFold_entityRepl A T ms r0
  refine ⟨parts, ms, hlen, ?_, htext, ?_, ?_, ?_, ?_, ?_⟩
  · rw [occCount, reCount, hcount]
  · rw [hred, reSub, hsub, hfold]
  · intro mt hmt
    obtain ⟨pv, tail, hpv⟩ := hmats mt hmt
    exact termMatcher_matched_lower T pv mt tail hpv
  · rw [hred, reSub, hsub, hfold]
  · rw [hred, reSub, hsub, hfold]
  · intro entry hentry
    obtain ⟨mt, _, rfl⟩ := List.mem_map.mp hentry
    rfl

/-- Concrete instance for `redact_entities_single_term`: mapping
`"Bob" → "PA"`, text `"Bob met bob."` — two whole-word matches. -/
theorem redact_entities_single_term_witness :
    ∃ parts ms,
      parts.length = ms.length + 1 ∧
      ms.length = occCount ['B', 'o', 'b'] ['B', 'o', 'b', ' ', 'm', 'e', 't', ' ', 'b', 'o', 'b', '.'] ∧
      ['B', 'o', 'b', ' ', 'm', 'e', 't', ' ', 'b', 'o', 'b', '.'] = glue parts ms ∧
      (redact_entities
          ⟨⟨ver10, ['t'], ['t'], [⟨['B', 'o', 'b'], ['P', 'A'], ['p'], [], [], ['t']⟩]⟩, [], []⟩
          ['B', 'o', 'b', ' ', 'm', 'e', 't', ' ', 'b', 'o', 'b', '.'] false).1 =
        glue parts (ms.map (fun _ => ['P', 'A'])) ∧
      (∀ mt ∈ ms, lowerS mt = lowerS ['B', 'o', 'b']) ∧
      (redact_entities
          ⟨⟨ver10, ['t'], ['t'], [⟨['B', 'o', 'b'], ['P', 'A'], ['p'], [], [], ['t']⟩]⟩, [], []⟩
          ['B', 'o', 'b', ' ', 'm', 'e', 't', ' ', 'b', 'o', 'b', '.'] false).2.redaction_log =
        [] ++ ms.map (fun mt => LogEntry.entity mt ['P', 'A'] ['B', 'o', 'b']) ∧
      (redact_entities
          ⟨⟨ver10, ['t'], ['t'], [⟨['B', 'o', 'b'], ['P', 'A'], ['p'], [], [], ['t']⟩]⟩, [], []⟩
          ['B', 'o', 'b', ' ', 'm', 'e', 't', ' ', 'b', 'o', 'b', '.'] false).2.mapping =
        ⟨ver10, ['t'], ['t'], [⟨['B', 'o', 'b'], ['P', 'A'], ['p'], [], [], ['t']⟩]⟩ ∧
      (∀ entry ∈ ms.map (fun mt => LogEntry.entity mt ['P', 'A'] ['B', 'o', 'b']),
        kindStr entry = ['e', 'n', 't', 'i', 't', 'y']) :=
  redact_entities_single_term
    ⟨⟨ver10, ['t'], ['t'], [⟨['B', 'o', 'b'], ['P', 'A'], ['p'], [], [], ['t']⟩]⟩, [], []⟩
    ['B', 'o', 'b'] ['P', 'A'] ['p'] [] ['t']
    ['B', 'o', 'b', ' ', 'm', 'e', 't', ' ', 'b', 'o', 'b', '.']
    (by decide) rfl

/- ### Pattern redaction (`redact_patterns`, random-mode counters) -/

/-- Python dict assignment `d[k] = v`: replace in place or append. -/
def setA {α : Type} : List (Str × α) → Str → α → List (Str × α)
  | [], k, v => [(k, v)]
  | (k', v') :: rest, k, v =>
    if k' = k then (k, v) :: rest else (k', v') :: setA rest k v

theorem lookupA_setA {α : Type} (l : List (Str × α)) (k : Str) (v : α) :
    lookupA (setA l k v) k = some v := by
  induction l with
  | nil => simp [setA, lookupA]
  | cons p rest ih =>
    by_cases h : p.1 = k
    · simp [setA, h, lookupA]
    · simp [setA, h, lookupA, ih]

theorem setA_setA {α : Type} (l : List (Str × α)) (k : Str) (v v' : α) :
    setA (setA l k v) k v' = setA l k v' := by
  induction l with
  | nil => simp [setA]
  | cons p rest ih =>
    by_cases h : p.1 = k
    · simp [setA, h]
    · simp [setA, h, ih]

/-- Python `f"{n:03d}"`: decimal digits, left-padded with `'0'` to width
at least 3. -/
def pad3 (n : Nat) : Str :=
  List.replicate (3 - (Nat.toDigits 10 n).length) '0' ++ Nat.toDigits 10 n

/-- The random-mode placeholder `f"[{pattern_type.upper()}-{count:03d}]"`
(line 91). -/
def randomPlaceholder (pattern_type : Str) (count : Nat) : Str :=
  '[' :: upperS pattern_type ++ '-' :: pad3 count ++ [']']

/-- The fixed placeholder `f"[{pattern_type.upper()}-REDACTED]"`
(line 93). -/
def redactedPlaceholder (pattern_type : Str) : Str :=
  '[' :: upperS pattern_type ++ '-' :: ['R', 'E', 'D', 'A', 'C', 'T', 'E', 'D'] ++ [']']

/-- `TextRedactor._get_pattern_replacement` (lines 83-93): in random mode
the per-pattern counter is created at 0 on first use, incremented, and a
numbered placeholder is produced; otherwise a fixed placeholder with no
counter mutation. -/
def get_pattern_replacement (counter : List (Str × Nat)) (pattern_type : Str)
    (random_mode : Bool) : Str × List (Str × Nat) :=
  if random_mode then
    (randomPlaceholder pattern_type ((lookupA counter pattern_type).getD 0 + 1),
     setA counter pattern_type ((lookupA counter pattern_type).getD 0 + 1))
  else (redactedPlaceholder pattern_type, counter)

/-- The `replace_func` closure of `redact_patterns` (lines 106-115):
produce the replacement via `_get_pattern_replacement` and append a
`pattern` log entry. -/
def patternRepl (pattern_name : Str) (random_mode : Bool) :
    Redactor → Str → Str × Redactor := fun r mt =>
  ((get_pattern_replacement r.random_counter pattern_name random_mode).1,
   { r with
      random_counter := (get_pattern_replacement r.random_counter pattern_name random_mode).2
      redaction_log := r.redaction_log ++
        [LogEntry.pattern pattern_name mt
          (get_pattern_replacement r.random_counter pattern_name random_mode).1] })

/-- `TextRedactor.redact_patterns` (lines 95-119), with the class constant
`PATTERNS` supplied as the registry `lib` of compiled matchers.
`patterns = none` selects every registered name in order (lines 98-99);
names absent from the registry are skipped (line 103). -/
def redact_patterns (lib : List (Str × Matcher)) (r : Redactor) (text : Str)
    (patterns : Option (List Str)) (random_mode : Bool) : Str × Redactor :=
  (patterns.getD (lib.map (fun p => p.1))).foldl
    (fun acc name =>
      match lookupA lib name with
      | some M => reSub M (patternRepl name random_mode) acc.2 acc.1
      | none => acc)
    (text, r)

/-- `TextRedactor.clear_log` (lines 210-213): reset the log and all
random-mode counters. -/
def clear_log (r : Redactor) : Redactor :=
  { r with redaction_log := [], random_counter := [] }

/- The `email` detector of the class constant `PATTERNS` (line 27):
`\b[A-Za-z0-9._%+-]+@[A-Za-z0-9.-]+\.[A-Z|a-z]{2,}\b`, compiled into an
explicit backtracking matcher.  The final class `[A-Z|a-z]` contains the
literal `|`, faithfully kept. -/

def emailLocalChar (c : Char) : Bool :=
  c.isAlphanum || c = '.' || c = '_' || c = '%' || c = '+' || c = '-'

def emailDomainChar (c : Char) : Bool := c.isAlphanum || c = '.' || c = '-'

def emailTldChar (c : Char) : Bool := c.isAlpha || c = '|'

/-- Greedy-with-backtracking search for the `[A-Z|a-z]{2,}\b` suffix:
`run` is the maximal run of TLD characters after the dot, `after` the text
following it; candidate lengths are tried longest-first down to 2, each
requiring a word boundary after its last character. -/
def tldSearch (run : Str) (after : Str) : Nat → Option Nat
  | 0 => none
  | t + 1 =>
    if t + 1 < 2 then none
    else if boundaryB (run.get? t)
        (if t + 1 = run.length then after.head? else run.get? (t + 1))
    then some (t + 1)
    else tldSearch run after t

/-- Greedy-with-backtracking search for `[A-Za-z0-9.-]+\.[A-Z|a-z]{2,}\b`
after the `@`: candidate domain lengths are tried longest-first down to 1,
each requiring a literal `'.'` next, then the TLD search; returns the
total matched length after the `@`. -/
def domSearch (rest2 : Str) : Nat → Option Nat
  | 0 => none
  | d + 1 =>
    if rest2.get? (d + 1) = some '.' then
      match tldSearch ((rest2.drop (d + 2)).takeWhile emailTldChar)
          ((rest2.drop (d + 2)).drop ((rest2.drop (d + 2)).takeWhile emailTldChar).length)
          ((rest2.drop (d + 2)).takeWhile emailTldChar).length with
      | some t => some (d + 1 + 1 + t)
      | none => domSearch rest2 d
    else domSearch rest2 d

/-- After the literal `@`: match `[A-Za-z0-9.-]+\\.[A-Z|a-z]{2,}\\b`
against `rest2`, returning the matched length. -/
def matchEmailAfterAt (rest2 : Str) : Option Nat :=
  domSearch rest2 (rest2.takeWhile emailDomainChar).length

/-- The compiled email pattern.  The local part `[A-Za-z0-9._%+-]+` is
forced to the maximal run (a shorter greedy choice would put a non-`@`
character where the literal `@` is required); the rest backtracks as in
`domSearch`/`tldSearch`. -/
def matchEmail : Matcher := fun prev s =>
  let lp := (s.takeWhile emailLocalChar).length
  if lp = 0 then none
  else if boundaryB prev s.head? = false then none
  else if (s.drop lp).head? = some '@' then
    match matchEmailAfterAt ((s.drop lp).drop 1) with
    | some k => some (lp + 1 + k)
    | none => none
  else none

theorem tldSearch_le (run after : Str) :
    ∀ f t, tldSearch run after f = some t → t ≤ f := by
  intro f
  induction f with
  | zero => intro t h; simp [tldSearch] at h
  | succ d ih =>
    intro t h
    simp only [tldSearch] at h
    by_cases h2 : d + 1 < 2
    · rw [if_pos h2] at h
      simp at h
    · rw [if_neg h2] at h
      by_cases hb : boundaryB (run.get? d)
          (if d + 1 = run.length then after.head? else run.get? (d + 1)) = true
      · rw [if_pos hb] at h
        have := Option.some.inj h
        omega
      · rw [if_neg hb] at h
        have := ih t h
        omega

theorem domSearch_le (rest2 : Str) :
    ∀ f k, domSearch rest2 f = some k → k ≤ rest2.length := by
  intro f
  induction f with
  | zero => intro k h; simp [domSearch] at h
  | succ d ih =>
    intro k h
    simp only [domSearch] at h
    by_cases hdot : rest2.get? (d + 1) = some '.'
    · rw [if_pos hdot] at h
      have hidx : d + 1 < rest2.length := by
        have := List.get?_eq_some.mp hdot
        exact this.1
      cases ht : tldSearch ((rest2.drop (d + 2)).takeWhile emailTldChar)
          ((rest2.drop (d + 2)).drop ((rest2.drop (d + 2)).takeWhile emailTldChar).length)
          ((rest2.drop (d + 2)).takeWhile emailTldChar).length with
      | none =>
        rw [ht] at h
        exact ih k h
      | some t =>
        rw [ht] at h
        have hk := Option.some.inj h
        have ht1 : t ≤ ((rest2.drop (d + 2)).takeWhile emailTldChar).length :=
          tldSearch_le _ _ _ t ht
      
        have ht2 : ((rest2.drop (d + 2)).takeWhile emailTldChar).length ≤
            (rest2.drop (d + 2)).length :=
          (List.takeWhile_prefix _).length_le
        have ht3 : (rest2.drop (d + 2)).length = rest2.length - (d + 2) := by
          simp
        omega
    · rw [if_neg hdot] at h
      exact ih k h

theorem matchEmail_le : ∀ pv s n, matchEmail pv s = some n → n ≤ s.length := by
  intro pv s n h
  simp only [matchEmail] at h
  by_cases h0 : (s.takeWhile emailLocalChar).length = 0
  · rw [if_pos h0] at h
    simp at h
  · rw [if_neg h0] at h
    by_cases hb : boundaryB pv s.head? = false
    · rw [if_pos hb] at h
      simp at h
    · rw [if_neg hb] at h
      have hlp : (s.takeWhile emailLocalChar).length ≤ s.length :=
        (List.takeWhile_prefix _).length_le
      by_cases hat : (s.drop (s.takeWhile emailLocalChar).length).head? = some '@'
      · rw [if_pos hat] at h
        cases hd : matchEmailAfterAt ((s.drop (s.takeWhile emailLocalChar).length).drop 1) with
        | none =>
          rw [hd] at h
          simp at h
        | some k =>
          rw [hd] at h
          have hk := Option.some.inj h
          have hk2 : k ≤ ((s.drop (s.takeWhile emailLocalChar).length).drop 1).length :=
            domSearch_le _ _ k hd
          have hne : (s.drop (s.takeWhile emailLocalChar).length).length ≠ 0 := by
            intro hz
            rw [List.head?_eq_none_iff.mpr (List.length_eq_zero.mp hz)] at hat
            simp at hat
          have hdl : ((s.drop (s.takeWhile emailLocalChar).length).drop 1).length =
              s.length - (s.takeWhile emailLocalChar).length - 1 := by
            simp [Nat.sub_sub]
          have hdl2 : (s.drop (s.takeWhile emailLocalChar).length).length =
              s.length - (s.takeWhile emailLocalChar).length := by
            simp
          omega
      · rw [if_neg hat] at h
        simp at h

/-- Specification-side description of random-mode numbering: starting
from counter value `c`, the successive placeholders `[P-{c+1:03d}]`,
`[P-{c+2:03d}]`, ... -/
def patternPlaceholders (P : Str) (c : Nat) : Nat → List Str
  | 0 => []
  | k + 1 => randomPlaceholder P (c + 1) :: patternPlaceholders P (c + 1) k

/-- Specification-side description of the log entries random-mode pattern
redaction appends: the i-th match of `P` (0-based, from counter `c`) is
logged with replacement `[P-{c+i+1:03d}]`. -/
def patternEntries (P : Str) (c : Nat) : List Str → List LogEntry
  | [] => []
  | mt :: ms =>
    LogEntry.pattern P mt (randomPlaceholder P (c + 1)) :: patternEntries P (c + 1) ms

theorem patternEntries_length (P : Str) (c : Nat) (ms : List Str) :
    (patternEntries P c ms).length = ms.length := by
  induction ms generalizing c with
  | nil => simp [patternEntries]
  | cons mt ms ih => simp [patternEntries, ih]

theorem patternEntries_get (P : Str) :
    ∀ (ms : List Str) (c : Nat) (i : Nat) (hi : i < ms.length)
      (hi2 : i < (patternEntries P c ms).length),
      (patternEntries P c ms).get ⟨i, hi2⟩ =
        LogEntry.pattern P (ms.get ⟨i, hi⟩) (randomPlaceholder P (c + i + 1)) := by
  intro ms
  induction ms with
  | nil => intro c i hi; simp at hi
  | cons mt ms ih =>
    intro c i hi hi2
    cases i with
    | zero => simp [patternEntries]
    | succ j =>
      have hj : j < ms.length := by simpa using hi
      have hj2 : j < (patternEntries P (c + 1) ms).length := by
        rw [patternEntries_length]
        exact hj
      have := ih (c + 1) j hj hj2
      simp only [patternEntries, List.get_cons_succ]
      rw [this]
      have : c + 1 + j + 1 = c + (j + 1) + 1 := by omega
      rw [this]

theorem replFold_patternRepl (P : Str) :
    ∀ (ms : List Str) (r : Redactor),
      replFold (patternRepl P true) r ms =
        (patternPlaceholders P ((lookupA r.random_counter P).getD 0) ms.length,
         { r with
            random_counter :=
              if ms.isEmpty then r.random_counter
              else setA r.random_counter P ((lookupA r.random_counter P).getD 0 + ms.length)
            redaction_log := r.redaction_log ++
              patternEntries P ((lookupA r.random_counter P).getD 0) ms }) := by
  intro ms
  induction ms with
  | nil => intro r; simp [replFold, patternPlaceholders, patternEntries]
  | cons mt ms ih =>
    intro r
    simp only [replFold, patternRepl, get_pattern_replacement, if_true]
    rw [ih]
    have hc1 : (lookupA (setA r.random_counter P
        ((lookupA r.random_counter P).getD 0 + 1)) P).getD 0 =
        (lookupA r.random_counter P).getD 0 + 1 := by
      rw [lookupA_setA]
      rfl
    by_cases hms : ms = []
    · subst hms
      simp [patternPlaceholders, patternEntries, hc1]
    · have hne : ms.isEmpty = false := by
        cases ms with
        | nil => exact absurd rfl hms
        | cons a l => rfl
      simp only [hc1, hne, List.isEmpty_cons, Bool.false_eq_true, if_false,
        patternPlaceholders, patternEntries, List.length_cons]
      rw [setA_setA]
      have harith : (lookupA r.random_counter P).getD 0 + 1 + ms.length =
          (lookupA r.random_counter P).getD 0 + (ms.length + 1) := by omega
      rw [harith]
      simp [List.append_assoc]

/-- The registry name `"email"`. -/
def emailName : Str := ['e', 'm', 'a', 'i', 'l']

/-- The compiled `email` entry of the class constant `PATTERNS`
(line 27).  The other seven detectors are not needed by the properties
proved here; the engine functions take the registry as an explicit
parameter. -/
def PATTERNS_email : List (Str × Matcher) := [(emailName, matchEmail)]

/-- C6.  Random-mode `redact_patterns` for a single pattern name `P`:
with `c` the per-pattern counter carried over from earlier calls (0 after
`clear_log` or on first use), the k-th match in order of appearance is
replaced by the zero-padded placeholder `[upper(P)-{c+k:03d}]` (k
starting at 1) and logged as kind `pattern` with that replacement; the
counter advances to `c + #matches` (it is not reset between calls), the
mapping is untouched, and `clear_log` empties the counter table so
numbering restarts at 001. -/
theorem redact_patterns_random_mode (lib : List (Str × Matcher)) (r : Redactor)
    (text : Str) (P : Str) (M : Matcher)
    (hP : lookupA lib P = some M)
    (HM : ∀ pv s n, M pv s = some n → n ≤ s.length) :
    ∃ parts ms,
      parts.length = ms.length + 1 ∧
      text = glue parts ms ∧
      ms.length = reCount M text ∧
      (redact_patterns lib r text (some [P]) true).1 =
        glue parts (patternPlaceholders P ((lookupA r.random_counter P).getD 0) ms.length) ∧
      (redact_patterns lib r text (some [P]) true).2.redaction_log =
        r.redaction_log ++ patternEntries P ((lookupA r.random_counter P).getD 0) ms ∧
      (∀ (c : Nat) (ns : List Str) (i : Nat) (hi : i < ns.length)
          (hi2 : i < (patternEntries P c ns).length),
        (patternEntries P c ns).get ⟨i, hi2⟩ =
          LogEntry.pattern P (ns.get ⟨i, hi⟩) (randomPlaceholder P (c + i + 1))) ∧
      (ms ≠ [] →
        lookupA (redact_patterns lib r text (some [P]) true).2.random_counter P =
          some ((lookupA r.random_counter P).getD 0 + ms.length)) ∧
      (ms = [] →
        (redact_patterns lib r text (some [P]) true).2.random_counter = r.random_counter) ∧
      (redact_patterns lib r text (some [P]) true).2.mapping = r.mapping ∧
      (clear_log (redact_patterns lib r text (some [P]) true).2).random_counter = [] := by
  have hred : redact_patterns lib r text (some [P]) true =
      reSub M (patternRepl P true) r text := by
    simp [redact_patterns, hP]
  obtain ⟨parts, ms, hlen, htext, hsub, hcount, -⟩ :=
    reSubAux_decomp M (patternRepl P true) HM text.length text r none (Nat.le_refl _)
  have hfold := replFold_patternRepl P ms r
  refine ⟨parts, ms, hlen, htext, ?_, ?_, ?_, ?_, ?_, ?_, ?_, ?_⟩
  · rw [reCount, hcount]
  · rw [hred, reSub, hsub, hfold]
  · rw [hred, reSub, hsub, hfold]
  · exact fun c ns i hi hi2 => patternEntries_get P ns c i hi hi2
  · intro hms
    rw [hred, reSub, hsub, hfold]
    have hne : ms.isEmpty = false := by
      cases ms with
      | nil => exact absurd rfl hms
      | cons a l => rfl
    simp only [hne, Bool.false_eq_true, if_false]
    exact lookupA_setA _ _ _
  · intro hms
    subst hms
    rw [hred, reSub, hsub, hfold]
    simp
  · rw [hred, reSub, hsub, hfold]
  · rw [hred, reSub, hsub, hfold]
    rfl

/-- `"Reach me at a@x.com or b@x.com"`. -/
def twoEmailText : Str :=
  ['R', 'e', 'a', 'c', 'h', ' ', 'm', 'e', ' ', 'a', 't', ' ',
   'a', '@', 'x', '.', 'c', 'o', 'm', ' ', 'o', 'r', ' ',
   'b', '@', 'x', '.', 'c', 'o', 'm']

/-- Concrete instance for `redact_patterns_random_mode`: the mapping is
untouched, and the two distinct email addresses become `[EMAIL-001]` and
`[EMAIL-002]` in order of first appearance. -/
theorem redact_patterns_random_mode_witness :
    (redact_patterns PATTERNS_email ⟨emptyMapping ['t'], [], []⟩ twoEmailText
        (some [emailName]) true).2.mapping = emptyMapping ['t'] ∧
    (redact_patterns PATTERNS_email ⟨emptyMapping ['t'], [], []⟩ twoEmailText
        (some [emailName]) true).1 =
      ['R', 'e', 'a', 'c', 'h', ' ', 'm', 'e', ' ', 'a', 't', ' ',
       '[', 'E', 'M', 'A', 'I', 'L', '-', '0', '0', '1', ']', ' ', 'o', 'r', ' ',
       '[', 'E', 'M', 'A', 'I', 'L', '-', '0', '0', '2', ']'] := by
  obtain ⟨-, -, -, -, -, -, -, -, -, -, hmap, -⟩ :=
    redact_patterns_random_mode PATTERNS_email ⟨emptyMapping ['t'], [], []⟩
      twoEmailText emailName matchEmail rfl matchEmail_le
  exact ⟨hmap, by decide⟩

/- ### Random-identifier redaction (`redact_with_random_ids`) -/

theorem lookupA_append_left {α : Type} (l1 l2 : List (Str × α)) (k : Str)
    (h : (lookupA l1 k).isSome = true) : lookupA (l1 ++ l2) k = lookupA l1 k := by
  induction l1 with
  | nil => simp [lookupA] at h
  | cons p rest ih =>
    obtain ⟨k1, w⟩ := p
    by_cases hk : k1 = k
    · rw [List.cons_append, lookupA, if_pos hk, lookupA, if_pos hk]
    · rw [List.cons_append, lookupA, if_neg hk, lookupA, if_neg hk]
      rw [lookupA, if_neg hk] at h
      exact ih h

theorem lookupA_append_right_of_none {α : Type} (l : List (Str × α)) (k : Str) (v : α)
    (h : lookupA l k = none) : lookupA (l ++ [(k, v)]) k = some v := by
  induction l with
  | nil => simp [lookupA]
  | cons p rest ih =>
    obtain ⟨k1, w⟩ := p
    by_cases hk : k1 = k
    · exfalso
      rw [lookupA, if_pos hk] at h
      simp at h
    · rw [List.cons_append, lookupA, if_neg hk]
      rw [lookupA, if_neg hk] at h
      exact ih h

/-- `TextRedactor._generate_random_id` (lines 77-81): `f"{prefix}-{part}"`
where `part` is 8 characters drawn from `secrets.choice`; the entropy
source is made explicit as the supplied random part. -/
def generate_random_id (entity_type : Str) (part : Str) : Str :=
  entity_type ++ '-' :: part

/-- `re.sub` with a plain string replacement (no state, no logging). -/
def reSubConst (M : Matcher) (rep : Str) (text : Str) : Str :=
  (reSubAux M (fun (u : Unit) _ => (rep, u)) text.length () none text).1

theorem replFold_const (rep : Str) :
    ∀ (ms : List Str) (u : Unit),
      replFold (fun (u : Unit) _ => (rep, u)) u ms = (ms.map (fun _ => rep), u) := by
  intro ms
  induction ms with
  | nil => intro u; rfl
  | cons mt ms ih => intro u; simp [replFold, ih]

/-- A plain-replacement `re.sub` pass decomposes the text into separators
and matches and rewrites every match to the replacement string. -/
theorem reSubConst_decomp (M : Matcher) (rep : Str) (t : Str)
    (HM : ∀ pv s n, M pv s = some n → n ≤ s.length) :
    ∃ parts ms, parts.length = ms.length + 1 ∧ t = glue parts ms ∧
      reSubConst M rep t = glue parts (ms.map (fun _ => rep)) ∧
      ms.length = reCount M t ∧
      ∀ mt ∈ ms, ∃ pv tail, M pv (mt ++ tail) = some mt.length := by
  obtain ⟨parts, ms, hlen, htext, hsub, hcount, hmats⟩ :=
    reSubAux_decomp M (fun (u : Unit) _ => (rep, u)) HM t.length t () none (Nat.le_refl _)
  refine ⟨parts, ms, hlen, htext, ?_, by rw [reCount, hcount], hmats⟩
  rw [reSubConst, hsub, replFold_const]

/-- The loop body of `redact_with_random_ids` (lines 158-170): generate an
identifier for a not-yet-seen entity string (advancing the entropy stream
index), substitute whole-word case-insensitive occurrences with the
mapped identifier, and append one `random` log entry. -/
def ridStep (rand : Nat → Str) (entity_type : Str)
    (acc : Str × List (Str × Str) × Redactor × Nat) (entity : Str) :
    Str × List (Str × Str) × Redactor × Nat :=
  let dm2 := if (lookupA acc.2.1 entity).isSome then acc.2.1
             else acc.2.1 ++ [(entity, generate_random_id entity_type (rand acc.2.2.2))]
  let k2 := if (lookupA acc.2.1 entity).isSome then acc.2.2.2 else acc.2.2.2 + 1
  let rid := (lookupA dm2 entity).getD []
  (reSubConst (termMatcher false entity) rid acc.1,
   dm2,
   { acc.2.2.1 with
      redaction_log := acc.2.2.1.redaction_log ++ [LogEntry.random entity rid] },
   k2)

/-- `TextRedactor.redact_with_random_ids` (lines 152-172), returning the
redacted text, the per-document mapping, the updated redactor state, and
the advanced entropy-stream index. -/
def redact_with_random_ids (rand : Nat → Str) (r : Redactor) (k : Nat)
    (text : Str) (entities : List Str) (entity_type : Str) :
    Str × List (Str × Str) × Redactor × Nat :=
  entities.foldl (ridStep rand entity_type) (text, [], r, k)

/-- `by_type` accumulation of `get_redaction_report` (lines 202-206). -/
def countBy (log : List LogEntry) : List (Str × Nat) :=
  log.foldl
    (fun acc entry =>
      setA acc (kindStr entry) ((lookupA acc (kindStr entry)).getD 0 + 1)) []

/-- The report returned by `get_redaction_report` (lines 194-208). -/
structure Report where
  total_redactions : Nat
  by_type : List (Str × Nat)
  details : List LogEntry
  deriving DecidableEq

/-- `TextRedactor.get_redaction_report` (lines 194-208). -/
def get_redaction_report (r : Redactor) : Report :=
  ⟨r.redaction_log.length, countBy r.redaction_log, r.redaction_log⟩

theorem ridFold_spec (rand : Nat → Str) (etype : Str) :
    ∀ (entities : List Str) (t0 : Str) (dm0 : List (Str × Str)) (r0 : Redactor) (k0 : Nat),
      (∀ key, ((lookupA dm0 key).isSome = true) →
        lookupA (entities.foldl (ridStep rand etype) (t0, dm0, r0, k0)).2.1 key =
          lookupA dm0 key) ∧
      (entities.foldl (ridStep rand etype) (t0, dm0, r0, k0)).2.2.1.redaction_log =
        r0.redaction_log ++ entities.map (fun e => LogEntry.random e
          ((lookupA (entities.foldl (ridStep rand etype) (t0, dm0, r0, k0)).2.1 e).getD [])) ∧
      (entities.foldl (ridStep rand etype) (t0, dm0, r0, k0)).2.2.1.mapping = r0.mapping ∧
      (∀ e ∈ entities,
        (lookupA (entities.foldl (ridStep rand etype) (t0, dm0, r0, k0)).2.1 e).isSome = true) ∧
      (entities.foldl (ridStep rand etype) (t0, dm0, r0, k0)).1 =
        entities.foldl
          (fun t e => reSubConst (termMatcher false e)
            ((lookupA (entities.foldl (ridStep rand etype) (t0, dm0, r0, k0)).2.1 e).getD []) t)
          t0 := by
  intro entities
  induction entities with
  | nil => intro t0 dm0 r0 k0; exact ⟨fun key h => rfl, by simp, rfl, by simp, rfl⟩
  | cons e es ih =>
    intro t0 dm0 r0 k0
    have hstep : List.foldl (ridStep rand etype) (t0, dm0, r0, k0) (e :: es) =
        List.foldl (ridStep rand etype) (ridStep rand etype (t0, dm0, r0, k0) e) es := by
      rw [List.foldl_cons]
    set st1 := ridStep rand etype (t0, dm0, r0, k0) e with hst1
    obtain ⟨ihext, ihlog, ihmap, ihmem, ihtext⟩ := ih st1.1 st1.2.1 st1.2.2.1 st1.2.2.2
    have hfold : List.foldl (ridStep rand etype) st1 es =
        List.foldl (ridStep rand etype) (st1.1, st1.2.1, st1.2.2.1, st1.2.2.2) es := by
      rfl
    have hdm1ext : ∀ key, (lookupA dm0 key).isSome = true →
        lookupA st1.2.1 key = lookupA dm0 key := by
      intro key hkey
      rw [hst1]
      simp only [ridStep]
      by_cases hmem : (lookupA dm0 e).isSome = true
      · simp [hmem]
      · simp only [hmem, Bool.false_eq_true, if_false]
        exact lookupA_append_left dm0 _ key hkey
    have hdm1e : (lookupA st1.2.1 e).isSome = true := by
      rw [hst1]
      simp only [ridStep]
      by_cases hmem : (lookupA dm0 e).isSome = true
      · simp [hmem]
      · simp only [hmem, Bool.false_eq_true, if_false]
        have hnone : lookupA dm0 e = none :=
          Option.not_isSome_iff_eq_none.mp (by simpa using hmem)
        rw [lookupA_append_right_of_none dm0 e _ hnone]
        rfl
    have hlog1 : st1.2.2.1.redaction_log =
        r0.redaction_log ++ [LogEntry.random e ((lookupA st1.2.1 e).getD [])] := by
      rw [hst1]
      rfl
    have hmap1 : st1.2.2.1.mapping = r0.mapping := by
      rw [hst1]
      rfl
    rw [hstep]
    refine ⟨?_, ?_, ?_, ?_, ?_⟩
    · intro key hkey
      rw [hfold, ihext key (by rw [hdm1ext key hkey]; exact hkey), hdm1ext key hkey]
    · rw [hfold, ihlog, hlog1]
      have he : lookupA (List.foldl (ridStep rand etype)
          (st1.1, st1.2.1, st1.2.2.1, st1.2.2.2) es).2.1 e = lookupA st1.2.1 e :=
        ihext e hdm1e
      simp only [List.map_cons, he]
      simp [List.append_assoc]
    · rw [hfold, ihmap, hmap1]
    · intro x hx
      rcases List.mem_cons.mp hx with rfl | hx'
      · rw [hfold, ihext x hdm1e]
        exact hdm1e
      · rw [hfold]
        exact ihmem x hx'
    · rw [List.foldl_cons, hfold, ihtext]
      have hsame : st1.1 = reSubConst (termMatcher false e)
          ((lookupA (List.foldl (ridStep rand etype)
            (st1.1, st1.2.1, st1.2.2.1, st1.2.2.2) es).2.1 e).getD []) t0 := by
        rw [ihext e hdm1e, hst1]
        rfl
      rw [← hsame]

/-- C9.  `redact_with_random_ids` appends exactly one log entry of kind
`random` per element of the entity list (including repeated elements and
elements with no match in the text), so `get_redaction_report` counts list
elements; each element's logged replacement is the single identifier the
per-document mapping assigns to that entity string (so repeats share one
identifier); the redacted text is exactly the successive whole-word
case-insensitive substitution of each listed entity string by its single
mapped identifier (each such pass rewrites every whole-word occurrence,
as the decomposition conjunct states); and the store's mapping document
is not modified. -/
theorem redact_with_random_ids_spec (rand : Nat → Str) (r : Redactor) (k : Nat)
    (text : Str) (entities : List Str) (etype : Str) :
    (redact_with_random_ids rand r k text entities etype).2.2.1.redaction_log =
      r.redaction_log ++ entities.map (fun e => LogEntry.random e
        ((lookupA (redact_with_random_ids rand r k text entities etype).2.1 e).getD [])) ∧
    (redact_with_random_ids rand r k text entities etype).2.2.1.mapping = r.mapping ∧
    (get_redaction_report (redact_with_random_ids rand r k text entities etype).2.2.1).total_redactions =
      r.redaction_log.length + entities.length ∧
    (∀ e ∈ entities,
      (lookupA (redact_with_random_ids rand r k text entities etype).2.1 e).isSome = true) ∧
    (∀ entry ∈ entities.map (fun e => LogEntry.random e
        ((lookupA (redact_with_random_ids rand r k text entities etype).2.1 e).getD [])),
      kindStr entry = ['r', 'a', 'n', 'd', 'o', 'm']) ∧
    (redact_with_random_ids rand r k text entities etype).1 =
      entities.foldl
        (fun t e => reSubConst (termMatcher false e)
          ((lookupA (redact_with_random_ids rand r k text entities etype).2.1 e).getD []) t)
        text ∧
    (∀ (q rep t : Str), ∃ parts ms, parts.length = ms.length + 1 ∧
      t = glue parts ms ∧ ms.length = occCount q t ∧
      reSubConst (termMatcher false q) rep t = glue parts (ms.map (fun _ => rep)) ∧
      ∀ mt ∈ ms, lowerS mt = lowerS q) := by
  obtain ⟨hext, hlog, hmap, hmem, htext⟩ := ridFold_spec rand etype entities text [] r k
  refine ⟨hlog, hmap, ?_, hmem, ?_, htext, ?_⟩
  · simp only [get_redaction_report]
    rw [redact_with_random_ids, hlog]
    simp
  · intro entry hentry
    obtain ⟨e, -, rfl⟩ := List.mem_map.mp hentry
    rfl
  · intro q rep t
    obtain ⟨parts, ms, hlen, ht, hsubst, hcnt, hmats⟩ :=
      reSubConst_decomp (termMatcher false q) rep t (termMatcher_le false q)
    refine ⟨parts, ms, hlen, ht, hcnt, hsubst, ?_⟩
    intro mt hmt
    obtain ⟨pv, tail, hpv⟩ := hmats mt hmt
    exact termMatcher_matched_lower q pv mt tail hpv

/- ### Merge (`AliasManager.merge`) -/

/-- The literal `"overwrite"`. -/
def owStr : Str := ['o', 'v', 'e', 'r', 'w', 'r', 'i', 't', 'e']

/-- The result counters of `merge` (line 230). -/
structure MergeRes where
  added : Nat
  skipped : Nat
  overwritten : Nat
  deriving DecidableEq

/-- The loop body of `merge` (lines 232-256): a conflict is any
`get_entity` hit (matching `original` or a variation); under `overwrite`
the store removes by original and re-adds through `add_entity`, whose
boolean result is discarded; under any other strategy the entity is
skipped; with no conflict the entity is added (boolean again
discarded). -/
def mergeStep (conflict_strategy : Str) (now : Str)
    (acc : Mapping × MergeRes) (e : Entity) : Mapping × MergeRes :=
  match get_entity acc.1 e.original with
  | some _ =>
    if conflict_strategy = owStr then
      ((add_entity (remove_entity acc.1 e.original).1 e.original e.alias' e.type
          e.variations e.notes now).1,
       { acc.2 with overwritten := acc.2.overwritten + 1 })
    else (acc.1, { acc.2 with skipped := acc.2.skipped + 1 })
  | none =>
    ((add_entity acc.1 e.original e.alias' e.type e.variations e.notes now).1,
     { acc.2 with added := acc.2.added + 1 })

/-- `AliasManager.merge` (lines 228-258). -/
def merge (m : Mapping) (other : Mapping) (conflict_strategy : Str) (now : Str) :
    Mapping × MergeRes :=
  other.entities.foldl (mergeStep conflict_strategy now) (m, ⟨0, 0, 0⟩)

theorem get_entity_aux_append_of_nomatch (es l : List Entity) (q : Str)
    (h : ∀ x ∈ es, entityMatches x q = false) :
    get_entity_aux (es ++ l) q = get_entity_aux l q := by
  induction es with
  | nil => simp
  | cons x xs ih =>
    have hx := h x (by simp)
    have h1 : ¬ lowerS x.original = lowerS q := by
      intro hc
      simp [entityMatches, hc] at hx
    have h2 : ¬ x.variations.any (fun v => lowerS v = lowerS q) = true := by
      intro hc
      simp [entityMatches, hc] at hx
    rw [List.cons_append]
    rw [get_entity_aux.eq_def]
    simp only [if_neg h1, if_neg h2]
    exact ih (fun y hy => h y (by simp [hy]))

/-- Counterexample to C4 as stated: store `[A → X, B → Y]`, incoming
document `[A → Y]`, strategy `overwrite`.  The conflict increments
`overwritten`, the existing `A` entity is removed, but the re-add fails
on the alias collision with `B → Y`, so afterwards the store does *not*
map `A` to the incoming alias — `A` is gone entirely. -/
theorem merge_overwrite_counterexample :
    (merge
        ⟨ver10, ['t'], ['t'],
          [⟨['A'], ['X'], ['p'], [], [], ['t']⟩, ⟨['B'], ['Y'], ['p'], [], [], ['t']⟩]⟩
        ⟨ver10, ['t'], ['t'], [⟨['A'], ['Y'], ['p'], [], [], ['t']⟩]⟩
        owStr ['t']).2.overwritten = 1 ∧
    get_alias
      (merge
        ⟨ver10, ['t'], ['t'],
          [⟨['A'], ['X'], ['p'], [], [], ['t']⟩, ⟨['B'], ['Y'], ['p'], [], [], ['t']⟩]⟩
        ⟨ver10, ['t'], ['t'], [⟨['A'], ['Y'], ['p'], [], [], ['t']⟩]⟩
        owStr ['t']).1 ['A'] = none := by
  decide

/-- The store and result counters after `merge` has processed the first
`i` entities of the other document: the prefix of `merge`'s fold
(lines 232-256). -/
def mergeUpTo (m other : Mapping) (conflict_strategy now : Str) (i : Nat) :
    Mapping × MergeRes :=
  (other.entities.take i).foldl (mergeStep conflict_strategy now) (m, ⟨0, 0, 0⟩)

theorem mergeUpTo_succ (m other : Mapping) (s now : Str) (i : Nat)
    (hi : i < other.entities.length) :
    mergeUpTo m other s now (i + 1) =
      mergeStep s now (mergeUpTo m other s now i) (other.entities.get ⟨i, hi⟩) := by
  rw [mergeUpTo, mergeUpTo, List.take_succ, List.getElem?_eq_getElem hi]
  simp only [Option.toList_some, List.foldl_append, List.foldl_cons, List.foldl_nil]
  rfl

theorem merge_eq_mergeUpTo (m other : Mapping) (s now : Str) (j : Nat) :
    merge m other s now =
      (other.entities.drop j).foldl (mergeStep s now) (mergeUpTo m other s now j) := by
  rw [merge, mergeUpTo, ← List.foldl_append, List.take_append_drop]

/-- C4 amended.  For every merge call under `overwrite` and each entity of
the other document whose original conflicts at the moment it is processed
(a `get_entity` hit against the store state `mergeUpTo … i` reached after
the earlier incoming entities): `overwritten` is incremented by exactly 1
(with `added`/`skipped` untouched) and the store performs
remove-then-re-add; provided that after the removal no remaining entity
collides case-insensitively with the incoming original or alias and no
remaining entity lists the original among its variations, the incoming
entity is appended and the store then maps the original to the incoming
alias.  The first conjunct places this step inside the actual `merge`
run. -/
theorem merge_overwrite_amended (m other : Mapping) (now : Str) (i : Nat)
    (hi : i < other.entities.length)
    (hconf : (get_entity (mergeUpTo m other owStr now i).1
        (other.entities.get ⟨i, hi⟩).original).isSome = true)
    (hnocoll : ∀ x ∈ (remove_entity (mergeUpTo m other owStr now i).1
        (other.entities.get ⟨i, hi⟩).original).1.entities,
      lowerS x.original ≠ lowerS (other.entities.get ⟨i, hi⟩).original ∧
      lowerS x.alias' ≠ lowerS (other.entities.get ⟨i, hi⟩).alias')
    (hnovar : ∀ x ∈ (remove_entity (mergeUpTo m other owStr now i).1
        (other.entities.get ⟨i, hi⟩).original).1.entities,
      ∀ v ∈ x.variations, lowerS v ≠ lowerS (other.entities.get ⟨i, hi⟩).original) :
    merge m other owStr now =
      (other.entities.drop (i + 1)).foldl (mergeStep owStr now)
        (mergeUpTo m other owStr now (i + 1)) ∧
    (mergeUpTo m other owStr now (i + 1)).1.entities =
      (remove_entity (mergeUpTo m other owStr now i).1
          (other.entities.get ⟨i, hi⟩).original).1.entities ++
        [⟨(other.entities.get ⟨i, hi⟩).original, (other.entities.get ⟨i, hi⟩).alias',
          (other.entities.get ⟨i, hi⟩).type, (other.entities.get ⟨i, hi⟩).variations,
          (other.entities.get ⟨i, hi⟩).notes, now⟩] ∧
    (mergeUpTo m other owStr now (i + 1)).2.overwritten =
      (mergeUpTo m other owStr now i).2.overwritten + 1 ∧
    (mergeUpTo m other owStr now (i + 1)).2.added =
      (mergeUpTo m other owStr now i).2.added ∧
    (mergeUpTo m other owStr now (i + 1)).2.skipped =
      (mergeUpTo m other owStr now i).2.skipped ∧
    get_alias (mergeUpTo m other owStr now (i + 1)).1
      (other.entities.get ⟨i, hi⟩).original = some (other.entities.get ⟨i, hi⟩).alias' := by
  set E := other.entities.get ⟨i, hi⟩ with hE
  obtain ⟨ex, hex⟩ := Option.isSome_iff_exists.mp hconf
  have hd : dupCheck
      (remove_entity (mergeUpTo m other owStr now i).1
        E.original).1.entities
      E.original E.alias' = false :=
    (dupCheck_eq_false_iff _ _ _).mpr hnocoll
  have hadd : add_entity
      (remove_entity (mergeUpTo m other owStr now i).1
        E.original).1
      E.original E.alias'
      E.type E.variations
      E.notes now =
      ({ (remove_entity (mergeUpTo m other owStr now i).1
            E.original).1 with entities :=
          (remove_entity (mergeUpTo m other owStr now i).1
              E.original).1.entities ++
            [⟨E.original, E.alias',
              E.type, E.variations,
              E.notes, now⟩] }, true) := by
    simp [add_entity, hd]
  have hstep : mergeUpTo m other owStr now (i + 1) =
      ({ (remove_entity (mergeUpTo m other owStr now i).1
            E.original).1 with entities :=
          (remove_entity (mergeUpTo m other owStr now i).1
              E.original).1.entities ++
            [⟨E.original, E.alias',
              E.type, E.variations,
              E.notes, now⟩] },
       { (mergeUpTo m other owStr now i).2 with overwritten :=
          (mergeUpTo m other owStr now i).2.overwritten + 1 }) := by
    rw [mergeUpTo_succ m other owStr now i hi, ← hE, mergeStep, hex, if_pos rfl, hadd]
  refine ⟨merge_eq_mergeUpTo m other owStr now (i + 1), by rw [hstep],
    by rw [hstep], by rw [hstep], by rw [hstep], ?_⟩
  rw [hstep]
  have hnom : ∀ x ∈ (remove_entity (mergeUpTo m other owStr now i).1
      E.original).1.entities,
      entityMatches x E.original = false := by
    intro x hx
    have h1 := (hnocoll x hx).1
    have h2 := hnovar x hx
    simp only [entityMatches, Bool.or_eq_false_iff, List.any_eq_false,
      decide_eq_false_iff_not]
    constructor
    · simpa using h1
    · intro v hv
      simpa using h2 v hv
  simp only [get_alias, get_entity]
  rw [get_entity_aux_append_of_nomatch _ _ _ hnom]
  simp [get_entity_aux]

/-- Concrete instance for `merge_overwrite_amended` with a two-entity
other document: store `[A → X]`, incoming `[B → W, A → Z]`, strategy
`overwrite`; the second incoming entity conflicts, is overwritten, and
the merged store maps `A` to `Z` with `overwritten = 1`. -/
theorem merge_overwrite_amended_witness :
    get_alias
      (merge ⟨ver10, ['t'], ['t'], [⟨['A'], ['X'], ['p'], [], [], ['t']⟩]⟩
        ⟨ver10, ['t'], ['t'],
          [⟨['B'], ['W'], ['p'], [], [], ['s']⟩, ⟨['A'], ['Z'], ['p'], [], [], ['s']⟩]⟩
        owStr ['s']).1 ['A'] = some ['Z'] ∧
    (merge ⟨ver10, ['t'], ['t'], [⟨['A'], ['X'], ['p'], [], [], ['t']⟩]⟩
        ⟨ver10, ['t'], ['t'],
          [⟨['B'], ['W'], ['p'], [], [], ['s']⟩, ⟨['A'], ['Z'], ['p'], [], [], ['s']⟩]⟩
        owStr ['s']).2.overwritten = 1 := by
  obtain ⟨h1, -, h3, -, -, h6⟩ := merge_overwrite_amended
    ⟨ver10, ['t'], ['t'], [⟨['A'], ['X'], ['p'], [], [], ['t']⟩]⟩
    ⟨ver10, ['t'], ['t'],
      [⟨['B'], ['W'], ['p'], [], [], ['s']⟩, ⟨['A'], ['Z'], ['p'], [], [], ['s']⟩]⟩
    ['s'] 1 (by decide) (by decide) (by decide) (by decide)
  have hm2 : merge ⟨ver10, ['t'], ['t'], [⟨['A'], ['X'], ['p'], [], [], ['t']⟩]⟩
      ⟨ver10, ['t'], ['t'],
        [⟨['B'], ['W'], ['p'], [], [], ['s']⟩, ⟨['A'], ['Z'], ['p'], [], [], ['s']⟩]⟩
      owStr ['s'] =
      mergeUpTo ⟨ver10, ['t'], ['t'], [⟨['A'], ['X'], ['p'], [], [], ['t']⟩]⟩
        ⟨ver10, ['t'], ['t'],
          [⟨['B'], ['W'], ['p'], [], [], ['s']⟩, ⟨['A'], ['Z'], ['p'], [], [], ['s']⟩]⟩
        owStr ['s'] 2 := h1.trans rfl
  constructor
  · rw [hm2]
    exact h6
  · rw [hm2, h3]
    decide

/- ### Tabular export / import (`export_csv` / `import_csv`) -/

/-- The characters Python `str.strip()` removes (`str.isspace()`):
ASCII `\\t`, `\\n`, `\\v`, `\\f`, `\\r`, the separators `\\x1c`-`\\x1f`,
the space, and the Unicode separator / bidi-whitespace set (NEL, NBSP,
Ogham space, the `U+2000`-`U+200A` spaces, LS, PS, narrow NBSP,
medium mathematical space, ideographic space). -/
def pyIsSpace (c : Char) : Bool :=
  (9 ≤ c.toNat && c.toNat ≤ 13) || (28 ≤ c.toNat && c.toNat ≤ 31) ||
  c.toNat = 32 || c.toNat = 133 || c.toNat = 160 ||
  c.toNat = 0x1680 || (0x2000 ≤ c.toNat && c.toNat ≤ 0x200a) ||
  c.toNat = 0x2028 || c.toNat = 0x2029 || c.toNat = 0x202f ||
  c.toNat = 0x205f || c.toNat = 0x3000

/-- Python `str.strip()`: remove leading and trailing whitespace. -/
def stripS (s : Str) : Str :=
  ((s.dropWhile pyIsSpace).reverse.dropWhile pyIsSpace).reverse

/-- Python `s.split(';')`: split at every `';'`, keeping empty pieces. -/
def splitSemi : Str → List Str
  | [] => [[]]
  | c :: rest =>
    if c = ';' then [] :: splitSemi rest
    else
      match splitSemi rest with
      | [] => [[c]]
      | p :: ps => (c :: p) :: ps

/-- Python `"; ".join(vs)`. -/
def joinSemi : List Str → Str
  | [] => []
  | [v] => v
  | v :: vs => v ++ ';' :: ' ' :: joinSemi vs

/-- The CSV header written on line 155 and used by `DictReader` on
import. -/
def csvHeader : List Str :=
  [['O', 'r', 'i', 'g', 'i', 'n', 'a', 'l'], ['A', 'l', 'i', 'a', 's'],
   ['T', 'y', 'p', 'e'], ['V', 'a', 'r', 'i', 'a', 't', 'i', 'o', 'n', 's'],
   ['N', 'o', 't', 'e', 's']]

/-- The row written for one entity (lines 158-164). -/
def rowOf (e : Entity) : List Str :=
  [e.original, e.alias', e.type, joinSemi e.variations, e.notes]

/-- `AliasManager.export_csv` (lines 149-164), with the `csv.writer`
serialization layer embedded as the identity on rows: the header row
followed by one row per entity, variations joined with `"; "`. -/
def export_csv (m : Mapping) : List (List Str) :=
  csvHeader :: m.entities.map rowOf

/-- Field access `row[name]` / `row.get(name, default)` on a
`csv.DictReader` row: header names zipped with the row's values. -/
def rowGet (header row : List Str) (name : Str) : Option Str :=
  lookupA (header.zip row) name

/-- The result counters of `import_csv` (line 170).  Python collects the
`str(e)` renderings of per-row exceptions; only their count is
modelled. -/
structure ImportRes where
  added : Nat
  skipped : Nat
  errors : Nat
  deriving DecidableEq

/-- The literal `"other"`. -/
def otherStr : Str := ['o', 't', 'h', 'e', 'r']

/-- The per-row body of `import_csv` (lines 175-196): a row without an
`Original` or `Alias` field raises a `KeyError`, collected as an error;
`Variations` is split on `';'`, each piece stripped, empties dropped;
under `overwrite` an existing entity is removed first; the boolean result
of `add_entity` decides added versus skipped. -/
def importRow (header : List Str) (overwrite : Bool) (now : Str)
    (acc : Mapping × ImportRes) (row : List Str) : Mapping × ImportRes :=
  match rowGet header row ['O', 'r', 'i', 'g', 'i', 'n', 'a', 'l'],
      rowGet header row ['A', 'l', 'i', 'a', 's'] with
  | some o, some a =>
    let vars := ((splitSemi ((rowGet header row
        ['V', 'a', 'r', 'i', 'a', 't', 'i', 'o', 'n', 's']).getD [])).map stripS).filter
      (fun v => v ≠ [])
    let m1 := if overwrite then (remove_entity acc.1 o).1 else acc.1
    let res := add_entity m1 o a
      ((rowGet header row ['T', 'y', 'p', 'e']).getD otherStr) vars
      ((rowGet header row ['N', 'o', 't', 'e', 's']).getD []) now
    if res.2 then (res.1, { acc.2 with added := acc.2.added + 1 })
    else (res.1, { acc.2 with skipped := acc.2.skipped + 1 })
  | _, _ => (acc.1, { acc.2 with errors := acc.2.errors + 1 })

/-- `AliasManager.import_csv` (lines 166-198), the `csv.DictReader` layer
embedded as a header row followed by data rows. -/
def import_csv (m : Mapping) (file : List (List Str)) (overwrite : Bool) (now : Str) :
    Mapping × ImportRes :=
  match file with
  | [] => (m, ⟨0, 0, 0⟩)
  | header :: rows => rows.foldl (importRow header overwrite now) (m, ⟨0, 0, 0⟩)

/-- The five fields compared by the round-trip property (the `added`
timestamp is excluded). -/
structure EntityKey where
  original : Str
  alias' : Str
  type : Str
  variations : List Str
  notes : Str
  deriving DecidableEq

def entKey (e : Entity) : EntityKey :=
  ⟨e.original, e.alias', e.type, e.variations, e.notes⟩

theorem splitSemi_ne_nil (s : Str) : splitSemi s ≠ [] := by
  cases s with
  | nil => simp [splitSemi]
  | cons c rest =>
    by_cases hc : c = ';'
    · simp [splitSemi, hc]
    · simp only [splitSemi, hc, if_false]
      cases splitSemi rest <;> simp

theorem splitSemi_no_semi (s : Str) (h : ';' ∉ s) : splitSemi s = [s] := by
  induction s with
  | nil => simp [splitSemi]
  | cons c rest ih =>
    have hc : ¬ c = ';' := fun hcc => h (by simp [hcc])
    have hrest : ';' ∉ rest := fun hr => h (by simp [hr])
    simp only [splitSemi, hc, if_false]
    rw [ih hrest]

theorem splitSemi_append_semi (v rest : Str) (h : ';' ∉ v) :
    splitSemi (v ++ ';' :: rest) = v :: splitSemi rest := by
  induction v with
  | nil => simp [splitSemi]
  | cons c v' ih =>
    have hc : ¬ c = ';' := fun hcc => h (by simp [hcc])
    have hv' : ';' ∉ v' := fun hr => h (by simp [hr])
    simp only [List.cons_append, splitSemi, hc, if_false, List.append_eq]
    rw [ih hv']

theorem stripS_space_cons (s : Str) : stripS (' ' :: s) = stripS s := by
  have hsp : pyIsSpace ' ' = true := by decide
  simp [stripS, List.dropWhile_cons, hsp]

theorem splitJoin (vs : List Str)
    (h : ∀ v ∈ vs, v ≠ [] ∧ stripS v = v ∧ ';' ∉ v) :
    ((splitSemi (joinSemi vs)).map stripS).filter (fun v => v ≠ []) = vs := by
  induction vs with
  | nil => simp [joinSemi, splitSemi, stripS]
  | cons v vs ih =>
    obtain ⟨hv1, hv2, hv3⟩ := h v (by simp)
    cases vs with
    | nil =>
      simp only [joinSemi]
      rw [splitSemi_no_semi v hv3]
      simp [hv2, hv1]
    | cons w ws =>
      have hjoin : joinSemi (v :: w :: ws) = v ++ ';' :: ' ' :: joinSemi (w :: ws) := rfl
      rw [hjoin, splitSemi_append_semi v _ hv3]
      obtain ⟨p, ps, hps⟩ : ∃ p ps, splitSemi (joinSemi (w :: ws)) = p :: ps := by
        cases hsp : splitSemi (joinSemi (w :: ws)) with
        | nil => exact absurd hsp (splitSemi_ne_nil _)
        | cons p ps => exact ⟨p, ps, rfl⟩
      have hsp2 : splitSemi (' ' :: joinSemi (w :: ws)) = (' ' :: p) :: ps := by
        simp only [splitSemi]
        rw [if_neg (by decide), hps]
      rw [hsp2]
      have ihr := ih (fun x hx => h x (by simp [hx]))
      rw [hps] at ihr
      simp only [List.map_cons, List.filter_cons] at ihr ⊢
      rw [stripS_space_cons]
      simp only [hv2]
      simp only [decide_not] at ihr ⊢
      rw [if_pos (by simpa using hv1)]
      exact congrArg (List.cons v) ihr

theorem rowGet_O (o a t v n : Str) :
    rowGet csvHeader [o, a, t, v, n] ['O', 'r', 'i', 'g', 'i', 'n', 'a', 'l'] = some o := rfl

theorem rowGet_A (o a t v n : Str) :
    rowGet csvHeader [o, a, t, v, n] ['A', 'l', 'i', 'a', 's'] = some a := rfl

theorem rowGet_T (o a t v n : Str) :
    rowGet csvHeader [o, a, t, v, n] ['T', 'y', 'p', 'e'] = some t := rfl

theorem rowGet_V (o a t v n : Str) :
    rowGet csvHeader [o, a, t, v, n] ['V', 'a', 'r', 'i', 'a', 't', 'i', 'o', 'n', 's'] =
      some v := rfl

theorem rowGet_N (o a t v n : Str) :
    rowGet csvHeader [o, a, t, v, n] ['N', 'o', 't', 'e', 's'] = some n := rfl

theorem dupsOf_eq_nil (xs : List Str) (h : dupsOf xs = []) : xs.Nodup := by
  have h2 : ∀ a ∈ xs, xs.count a ≤ 1 := by
    simpa [dupsOf] using h
  clear h
  induction xs with
  | nil => exact List.nodup_nil
  | cons x xs ih =>
    rw [List.nodup_cons]
    refine ⟨?_, ih ?_⟩
    · intro hmem
      have hc := h2 x (by simp)
      rw [List.count_cons_self] at hc
      have hpos : 0 < xs.count x := List.count_pos_iff.mpr hmem
      omega
    · intro a ha
      have hc := h2 a (by simp [ha])
      have hsub : xs.count a ≤ (x :: xs).count a :=
        List.Sublist.count_le (List.sublist_cons_self x xs) a
      omega

theorem validate_true_pairwise (m : Mapping) (h : (validate m).1 = true) :
    m.entities.Pairwise (fun a b =>
      lowerS a.original ≠ lowerS b.original ∧ lowerS a.alias' ≠ lowerS b.alias') := by
  have hiss : (validate m).2 = [] := List.isEmpty_iff.mp h
  simp only [validate] at hiss
  rw [List.append_eq_nil, List.append_eq_nil] at hiss
  obtain ⟨⟨h1, h2⟩, h3⟩ := hiss
  have hd1 : dupsOf (m.entities.map (fun e => lowerS e.original)) = [] := by
    by_cases hc : dupsOf (m.entities.map (fun e => lowerS e.original)) = []
    · exact hc
    · rw [if_neg hc] at h1
      simp at h1
  have hd2 : dupsOf (m.entities.map (fun e => lowerS e.alias')) = [] := by
    by_cases hc : dupsOf (m.entities.map (fun e => lowerS e.alias')) = []
    · exact hc
    · rw [if_neg hc] at h2
      simp at h2
  have hp1 : m.entities.Pairwise (fun a b => lowerS a.original ≠ lowerS b.original) :=
    (List.pairwise_map.mp (dupsOf_eq_nil _ hd1))
  have hp2 : m.entities.Pairwise (fun a b => lowerS a.alias' ≠ lowerS b.alias') :=
    (List.pairwise_map.mp (dupsOf_eq_nil _ hd2))
  exact hp1.and hp2

theorem import_fold_exported (now : Str) :
    ∀ (es : List Entity) (macc : Mapping) (res : ImportRes),
      (∀ x ∈ macc.entities, ∀ y ∈ es,
        lowerS x.original ≠ lowerS y.original ∧ lowerS x.alias' ≠ lowerS y.alias') →
      es.Pairwise (fun a b =>
        lowerS a.original ≠ lowerS b.original ∧ lowerS a.alias' ≠ lowerS b.alias') →
      (∀ e ∈ es, ∀ v ∈ e.variations, v ≠ [] ∧ stripS v = v ∧ ';' ∉ v) →
      ((es.map rowOf).foldl (importRow csvHeader false now) (macc, res)).1.entities =
        macc.entities ++ es.map (fun e =>
          (⟨e.original, e.alias', e.type, e.variations, e.notes, now⟩ : Entity)) := by
  intro es
  induction es with
  | nil => intro macc res h1 h2 h3; simp
  | cons e es ih =>
    intro macc res h1 h2 h3
    have hvars := splitJoin e.variations (h3 e (by simp))
    have hd : dupCheck macc.entities e.original e.alias' = false := by
      rw [dupCheck_eq_false_iff]
      intro x hx
      exact h1 x hx e (by simp)
    have hrow : importRow csvHeader false now (macc, res) (rowOf e) =
        ({ macc with entities := macc.entities ++
            [⟨e.original, e.alias', e.type, e.variations, e.notes, now⟩] },
         { res with added := res.added + 1 }) := by
      simp only [importRow, rowOf, rowGet_O, rowGet_A, rowGet_T, rowGet_V, rowGet_N,
        Option.getD_some, Bool.false_eq_true, if_false]
      rw [hvars]
      simp [add_entity, hd]
    rw [List.map_cons, List.foldl_cons, hrow]
    have hnext := ih { macc with entities := macc.entities ++
        [⟨e.original, e.alias', e.type, e.variations, e.notes, now⟩] }
      { res with added := res.added + 1 }
      ?_ (List.Pairwise.sublist (List.sublist_cons_self e es) h2)
      (fun x hx => h3 x (by simp [hx]))
    · rw [hnext]
      simp [List.append_assoc]
    · intro x hx y hy
      rcases List.mem_append.mp hx with hx' | hx'
      · exact h1 x hx' y (by simp [hy])
      · have hx2 : x = ⟨e.original, e.alias', e.type, e.variations, e.notes, now⟩ := by
          simpa using hx'
        subst hx2
        have := (List.pairwise_cons.mp h2).1 y hy
        exact this

/-- Counterexample to C7 as stated: a store holding one entity whose
`variations` list is `[""]` (the empty string contains no semicolon, and
`validate` passes since only `original`/`alias` emptiness is checked).
Export joins the variations into `""`; import splits, strips and drops
empties, yielding `[]` — the round trip is not an equivalent entity
set. -/
theorem csv_roundtrip_counterexample :
    (validate ⟨ver10, ['t'], ['t'], [⟨['J'], ['P'], ['p'], [[]], [], ['t']⟩]⟩).1 = true ∧
    (∀ e ∈ (⟨ver10, ['t'], ['t'], [⟨['J'], ['P'], ['p'], [[]], [], ['t']⟩]⟩ : Mapping).entities,
      ∀ v ∈ e.variations, ';' ∉ v) ∧
    ¬ ((import_csv (emptyMapping ['u'])
          (export_csv ⟨ver10, ['t'], ['t'], [⟨['J'], ['P'], ['p'], [[]], [], ['t']⟩]⟩)
          false ['u']).1.entities.map entKey).Perm
        ((⟨ver10, ['t'], ['t'], [⟨['J'], ['P'], ['p'], [[]], [], ['t']⟩]⟩ : Mapping).entities.map entKey) := by
  refine ⟨by decide, by decide, ?_⟩
  intro hperm
  have hr : ((⟨ver10, ['t'], ['t'],
      [⟨['J'], ['P'], ['p'], [[]], [], ['t']⟩]⟩ : Mapping).entities.map entKey) =
      [⟨['J'], ['P'], ['p'], [[]], []⟩] := rfl
  rw [hr] at hperm
  have heq := List.perm_singleton.mp hperm
  rw [show ((import_csv (emptyMapping ['u'])
        (export_csv ⟨ver10, ['t'], ['t'], [⟨['J'], ['P'], ['p'], [[]], [], ['t']⟩]⟩)
        false ['u']).1.entities.map entKey) =
      [⟨['J'], ['P'], ['p'], [], []⟩] from by decide] at heq
  exact absurd heq (by decide)

/-- C7 amended.  For a store whose entities satisfy the validation
invariants and all of whose variation strings are non-empty, free of
semicolons, *and free of leading/trailing whitespace*: exporting to the
tabular format and importing the result into an empty store reproduces an
equivalent entity set (order-independent comparison — here in fact
order-preserving equality — on original/alias/type/variations/notes). -/
theorem csv_roundtrip_amended (m : Mapping) (now : Str)
    (hvalid : (validate m).1 = true)
    (hvars : ∀ e ∈ m.entities, ∀ v ∈ e.variations, v ≠ [] ∧ stripS v = v ∧ ';' ∉ v) :
    (import_csv (emptyMapping now) (export_csv m) false now).1.entities.map entKey =
      m.entities.map entKey ∧
    ((import_csv (emptyMapping now) (export_csv m) false now).1.entities.map entKey).Perm
      (m.entities.map entKey) := by
  have hpair := validate_true_pairwise m hvalid
  have hfold := import_fold_exported now m.entities (emptyMapping now) ⟨0, 0, 0⟩
    (by intro x hx; simp [emptyMapping] at hx) hpair hvars
  have heq : (import_csv (emptyMapping now) (export_csv m) false now).1.entities =
      m.entities.map (fun e =>
        (⟨e.original, e.alias', e.type, e.variations, e.notes, now⟩ : Entity)) := by
    simp only [import_csv, export_csv]
    simpa using hfold
  have hkey : (import_csv (emptyMapping now) (export_csv m) false now).1.entities.map entKey =
      m.entities.map entKey := by
    rw [heq, List.map_map]
    rfl
  exact ⟨hkey, hkey ▸ List.Perm.refl _⟩

/-- Concrete instance for `csv_roundtrip_amended`: two entities, one with
two well-formed variations, survive the round trip. -/
theorem csv_roundtrip_amended_witness :
    (import_csv (emptyMapping ['u'])
        (export_csv ⟨ver10, ['t'], ['t'],
          [⟨['J'], ['P'], ['p'], [['J', 'S'], ['v']], ['n'], ['t']⟩,
           ⟨['K'], ['Q'], ['o'], [], [], ['t']⟩]⟩)
        false ['u']).1.entities.map entKey =
      (⟨ver10, ['t'], ['t'],
        [⟨['J'], ['P'], ['p'], [['J', 'S'], ['v']], ['n'], ['t']⟩,
         ⟨['K'], ['Q'], ['o'], [], [], ['t']⟩]⟩ : Mapping).entities.map entKey :=
  (csv_roundtrip_amended
    ⟨ver10, ['t'], ['t'],
      [⟨['J'], ['P'], ['p'], [['J', 'S'], ['v']], ['n'], ['t']⟩,
       ⟨['K'], ['Q'], ['o'], [], [], ['t']⟩]⟩
    ['u'] (by decide) (by decide)).1

/-- Concrete instance for `redact_with_random_ids_spec`: a three-element
entity list (with a repeat and a no-match element) yields three log
entries and leaves the mapping untouched. -/
theorem redact_with_random_ids_spec_witness :
    (redact_with_random_ids (fun _ => ['R', '1']) ⟨emptyMapping ['t'], [], []⟩ 0
        ['B', 'o', 'b'] [['B', 'o', 'b'], ['B', 'o', 'b'], ['Z', 'q']] ['E']).2.2.1.mapping =
      emptyMapping ['t'] ∧
    (get_redaction_report
        (redact_with_random_ids (fun _ => ['R', '1']) ⟨emptyMapping ['t'], [], []⟩ 0
          ['B', 'o', 'b'] [['B', 'o', 'b'], ['B', 'o', 'b'], ['Z', 'q']] ['E']).2.2.1).total_redactions =
      3 := by
  have h := redact_with_random_ids_spec (fun _ => ['R', '1']) ⟨emptyMapping ['t'], [], []⟩ 0
    ['B', 'o', 'b'] [['B', 'o', 'b'], ['B', 'o', 'b'], ['Z', 'q']] ['E']
  exact ⟨h.2.1, by rw [h.2.2.1]; rfl⟩
